import Mathlib

/-!
Verification development for the FAAM data-utilities wrapper.

Part 1 embeds the accessor / pin-selection model of
`faamda/wrapper/accessors/accessor.py` together with the pieces of
`faamda/wrapper/wrapper.py` it relies on (`FAAMFile`, `FULL_FREQ`).

Python dynamic values that flow through the pin machinery are modelled by
`PyV`: an integer, a string, or Python `None`.  Comparisons between
incomparable values (as raised by Python `max`) are modelled by `pyLt`
returning `none`, and `pyMax` returns `none` exactly when Python `max`
raises (`TypeError` on incomparable elements, `ValueError` on an empty
list) — both exceptions are swallowed by the `_autoset_*` methods.
-/

namespace Faam

/-- A Python value appearing in the version / revision / freq pins:
an `int`, a `str`, or `None`. -/
inductive PyV where
  | vint (n : ℤ)
  | vstr (s : String)
  | vnone
deriving DecidableEq, Repr

/-- Python `<` on two values: defined for int/int and str/str, a
`TypeError` (modelled as `none`) otherwise, in particular whenever
`None` is involved. -/
def pyLt : PyV → PyV → Option Bool
  | PyV.vint a, PyV.vint b => some (decide (a < b))
  | PyV.vstr a, PyV.vstr b => some (decide (a < b))
  | _, _ => none

/-- Python `max` over a list: `none` models the `ValueError` raised on an
empty list and the `TypeError` raised on incomparable elements. -/
def pyMax (l : List PyV) : Option PyV :=
  match l with
  | [] => none
  | x :: xs =>
      xs.foldl (fun acc y =>
        acc.bind (fun m => (pyLt m y).map (fun b => if b then y else m)))
        (some x)

/-- The sentinel `FULL_FREQ = 101` from `wrapper.py`. -/
def FULL_FREQ : ℤ := 101

/-- Embedding of `wrapper.FAAMFile` as seen by the accessor machinery:
the path plus the `version`, `revision` and `_freq` attributes extracted
from the filename match (`_freq` is always an `int`, defaulting to
`FULL_FREQ` when the freq group is missing or unparseable). -/
structure FAAMFile where
  path : String
  version : PyV
  revision : PyV
  freqRaw : ℤ
deriving DecidableEq, Repr

/-- The `FAAMFile.freq` property: returns the string `'full'` when the
stored frequency is the `FULL_FREQ` sentinel, the integer otherwise. -/
def FAAMFile.freq (f : FAAMFile) : PyV :=
  if f.freqRaw = FULL_FREQ then PyV.vstr "full" else PyV.vint f.freqRaw

/-- Embedding of the mutable state of `accessor.DataAccessor`:
the file list and the three pins `_version`, `_revision`, `_freq`. -/
structure DataAccessor where
  files : List FAAMFile
  ver : PyV
  rev : PyV
  frq : PyV
deriving DecidableEq, Repr

/-- The state produced by `DataAccessor.__init__`: no files, all three
pins `None`. -/
def DataAccessor.init : DataAccessor :=
  { files := [], ver := PyV.vnone, rev := PyV.vnone, frq := PyV.vnone }

/-- The `version` property (plain read of `_version`). -/
def DataAccessor.version (a : DataAccessor) : PyV := a.ver

/-- The `revision` property (plain read of `_revision`). -/
def DataAccessor.revision (a : DataAccessor) : PyV := a.rev

/-- The `freq` property: maps the `FULL_FREQ` sentinel to `'full'`. -/
def DataAccessor.freq (a : DataAccessor) : PyV :=
  if a.frq = PyV.vint FULL_FREQ then PyV.vstr "full" else a.frq

/-- The test `attr_val in [None, [], '']` guarding each filter step of
`_filtered_files` ( `[]` can never equal an int or a non-empty string,
so only `None` and the empty string are observable here). -/
def isBlank : PyV → Bool
  | PyV.vnone => true
  | PyV.vstr s => s = ""
  | _ => false

/-- Embedding of `DataAccessor._filtered_files(**kwargs)`: each of the
three arguments is `some v` when the keyword was passed explicitly
(value `v`, possibly `None`) and `none` when absent, in which case the
instance property is used.  Filtering is applied attribute by attribute,
in the `fileattrs` order `('version', 'revision', 'freq')`, skipping
attributes whose effective value is blank. -/
def filteredWith (a : DataAccessor) (vArg rArg fArg : Option PyV) :
    List FAAMFile :=
  let vVal := vArg.getD a.version
  let rVal := rArg.getD a.revision
  let fVal := fArg.getD a.freq
  let fs := a.files
  let fs := if isBlank vVal then fs else fs.filter (fun x => x.version = vVal)
  let fs := if isBlank rVal then fs else fs.filter (fun x => x.revision = rVal)
  let fs := if isBlank fVal then fs else fs.filter (fun x => x.freq = fVal)
  fs

/-- The `filtered_files` property: `_filtered_files()` with no keyword
arguments. -/
def filtered_files (a : DataAccessor) : List FAAMFile :=
  filteredWith a none none none

/-- Embedding of `_autoset_revision`: sets `_revision` to the maximum
revision among the files matching the current version pin only
(`revision=None, freq=None` are passed explicitly); a `TypeError` or
`ValueError` from `max` leaves the pin untouched. -/
def autosetRevision (a : DataAccessor) : DataAccessor :=
  match pyMax ((filteredWith a none (some PyV.vnone) (some PyV.vnone)).map
      (fun i => i.revision)) with
  | none => a
  | some m => { a with rev := m }

/-- Embedding of `_autoset_version`: sets `_version` to the maximum
version over all files; on success it then calls `_autoset_revision`,
on a `TypeError`/`ValueError` it leaves everything untouched. -/
def autosetVersion (a : DataAccessor) : DataAccessor :=
  match pyMax (a.files.map (fun i => i.version)) with
  | none => a
  | some m => autosetRevision { a with ver := m }

/-- Embedding of `_autoset_freq`: sets `_freq` to the maximum of the
`freq` property over the currently filtered files (note: filtered under
all three current pins, including the current freq pin); a
`TypeError`/`ValueError` leaves the pin untouched. -/
def autosetFreq (a : DataAccessor) : DataAccessor :=
  match pyMax ((filtered_files a).map (fun i => i.freq)) with
  | none => a
  | some m => { a with frq := m }

/-- Embedding of `_autoset_file`: version (which chains revision), then
revision again, then freq. -/
def autosetFile (a : DataAccessor) : DataAccessor :=
  autosetFreq (autosetRevision (autosetVersion a))

/-- Embedding of `add_file`: append the file, then `_autoset_file`. -/
def add_file (a : DataAccessor) (f : FAAMFile) : DataAccessor :=
  autosetFile { a with files := a.files ++ [f] }

/-- Embedding of the `version` setter.  Returns the state of the object
after the call together with `true` when the call raised `ValueError`:
the pin is set, an empty filtered list triggers a revision auto-reset,
and if the filtered list is still empty the version pin (only) is
restored and the error raised. -/
def set_version (a : DataAccessor) (version : PyV) : DataAccessor × Bool :=
  let old := a.ver
  let a1 := { a with ver := version }
  let a2 := if filtered_files a1 = [] then autosetRevision a1 else a1
  if filtered_files a2 = [] then ({ a2 with ver := old }, true)
  else (a2, false)

/-- Embedding of the `revision` setter: set, and if the filtered list is
empty restore the pin and raise. -/
def set_revision (a : DataAccessor) (revision : PyV) : DataAccessor × Bool :=
  let old := a.rev
  let a1 := { a with rev := revision }
  if filtered_files a1 = [] then ({ a1 with rev := old }, true)
  else (a1, false)

/-- Embedding of the `freq` setter: `None` is replaced by the
`FULL_FREQ` sentinel; the pin is committed unconditionally and the
setter never raises. -/
def set_freq (a : DataAccessor) (freq : PyV) : DataAccessor × Bool :=
  if freq = PyV.vnone then ({ a with frq := PyV.vint FULL_FREQ }, false)
  else ({ a with frq := freq }, false)

/-- Embedding of the `file` property: the head of the filtered list
(Python `_files[0]`, an `IndexError` — modelled as `none` — when the
list is empty; a warning is printed, not modelled, when it has more
than one element). -/
def file (a : DataAccessor) : Option String :=
  match filtered_files a with
  | [] => none
  | f :: _ => some f.path

end Faam

namespace Faam

/-! ### Concrete fixtures (files and accessor states built via `add_file`) -/

/-- File with version 1, revision 0, frequency 1. -/
def fileV1R0F1 : FAAMFile :=
  { path := "c1r0f1.nc", version := PyV.vint 1, revision := PyV.vint 0,
    freqRaw := 1 }

/-- File with version 2, revision 5, frequency 2. -/
def fileV2R5F2 : FAAMFile :=
  { path := "c2r5f2.nc", version := PyV.vint 2, revision := PyV.vint 5,
    freqRaw := 2 }

/-- File with version 2, revision 0, frequency 2. -/
def fileV2R0F2 : FAAMFile :=
  { path := "g2.nc", version := PyV.vint 2, revision := PyV.vint 0,
    freqRaw := 2 }

/-- Accessor built by adding the (2,5,2) file and then the (1,0,1) file:
its pins auto-select to version 2, revision 5, frequency 2. -/
def accTwoVersions : DataAccessor :=
  add_file (add_file DataAccessor.init fileV2R5F2) fileV1R0F1

/-- Accessor built by adding (1,0,1) and then (2,0,2): the freq pin stays
at 1 while version and revision move to the new file. -/
def accStaleFreq : DataAccessor :=
  add_file (add_file DataAccessor.init fileV1R0F1) fileV2R0F2

/-- Accessor holding a single (1,0,1) file. -/
def accSingle : DataAccessor := add_file DataAccessor.init fileV1R0F1

/-- File named "b.nc", pins (1,0,1). -/
def fileB : FAAMFile :=
  { path := "b.nc", version := PyV.vint 1, revision := PyV.vint 0,
    freqRaw := 1 }

/-- File named "a.nc", pins (1,0,1). -/
def fileA : FAAMFile :=
  { path := "a.nc", version := PyV.vint 1, revision := PyV.vint 0,
    freqRaw := 1 }

/-- Accessor with two duplicate-pinned files, "b.nc" added before
"a.nc". -/
def accDup : DataAccessor := add_file (add_file DataAccessor.init fileB) fileA


/-! ### Helper lemmas about the setters and autoset operations -/

/-- `_autoset_revision` only ever writes the revision pin. -/
theorem autosetRevision_ver_frq (a : DataAccessor) :
    (autosetRevision a).ver = a.ver ∧ (autosetRevision a).frq = a.frq ∧
    (autosetRevision a).files = a.files := by
  unfold autosetRevision
  cases pyMax ((filteredWith a none (some PyV.vnone) (some PyV.vnone)).map
      (fun i => i.revision)) with
  | none => exact ⟨rfl, rfl, rfl⟩
  | some m => exact ⟨rfl, rfl, rfl⟩

/-- The accessor state the version setter inspects for its final
emptiness check: the pin is set, and the revision is auto-reset when
the filtered list became empty. -/
def verSetProbe (a : DataAccessor) (v : PyV) : DataAccessor :=
  if filtered_files { a with ver := v } = [] then
    autosetRevision { a with ver := v }
  else { a with ver := v }

/-- Unfolding equation for the version setter. -/
theorem set_version_def (a : DataAccessor) (v : PyV) :
    set_version a v =
      if filtered_files (verSetProbe a v) = [] then
        ({ verSetProbe a v with ver := a.ver }, true)
      else (verSetProbe a v, false) := rfl

/-- Unfolding equation for the revision setter (rolling the pin back
restores the original state). -/
theorem set_revision_def (a : DataAccessor) (r : PyV) :
    set_revision a r =
      if filtered_files { a with rev := r } = [] then (a, true)
      else ({ a with rev := r }, false) := rfl

/-- Unfolding equation for the freq setter. -/
theorem set_freq_def (a : DataAccessor) (q : PyV) :
    set_freq a q =
      if q = PyV.vnone then ({ a with frq := PyV.vint FULL_FREQ }, false)
      else ({ a with frq := q }, false) := rfl

/-- The probe state of the version setter keeps the freq pin. -/
theorem verSetProbe_frq (a : DataAccessor) (v : PyV) :
    (verSetProbe a v).frq = a.frq := by
  unfold verSetProbe
  split
  · exact (autosetRevision_ver_frq { a with ver := v }).2.1
  · rfl

/-- The observable freq property only depends on the `_freq` field. -/
theorem freq_congr {x y : DataAccessor} (h : x.frq = y.frq) :
    x.freq = y.freq := by
  unfold DataAccessor.freq
  rw [h]

/-! ### C1 -/

/-- Claim C1, counterexample: on the accessor holding files (2,5,2) and
(1,0,1) with pins (2,5,2), the explicit version change to 1 raises, yet
the observable revision pin after the failed call is 0, not the
pre-call 5: a failed version change does not leave the revision pin
unchanged. -/
theorem C1_atomicity_counterexample :
    (set_version accTwoVersions (PyV.vint 1)).2 = true ∧
    accTwoVersions.revision = PyV.vint 5 ∧
    (set_version accTwoVersions (PyV.vint 1)).1.revision = PyV.vint 0 ∧
    (set_version accTwoVersions (PyV.vint 1)).1.revision ≠
      accTwoVersions.revision := by
  decide

/-- Claim C1 amended: a failed revision change leaves all three
observable pins unchanged, and a failed version change restores the
version pin and leaves the frequency pin unchanged — but may leave the
revision pin changed (it is auto-reset toward the attempted version
before the rollback). -/
theorem C1_atomicity_amended (a : DataAccessor) (r v : PyV)
    (hr : (set_revision a r).2 = true)
    (hv : (set_version a v).2 = true) :
    (set_revision a r).1.version = a.version ∧
    (set_revision a r).1.revision = a.revision ∧
    (set_revision a r).1.freq = a.freq ∧
    (set_version a v).1.version = a.version ∧
    (set_version a v).1.freq = a.freq := by
  rw [set_revision_def] at hr ⊢
  rw [set_version_def] at hv ⊢
  by_cases h1 : filtered_files { a with rev := r } = []
  · rw [if_pos h1]
    by_cases h2 : filtered_files (verSetProbe a v) = []
    · rw [if_pos h2]
      exact ⟨rfl, rfl, rfl, rfl, freq_congr (verSetProbe_frq a v)⟩
    · rw [if_neg h2] at hv
      exact Bool.noConfusion hv
  · rw [if_neg h1] at hr
    exact Bool.noConfusion hr

/-- Witness for `C1_atomicity_amended`: on the two-version accessor,
setting revision to 9 raises and setting version to 1 raises. -/
theorem C1_atomicity_witness :
    (set_revision accTwoVersions (PyV.vint 9)).2 = true ∧
    (set_version accTwoVersions (PyV.vint 1)).2 = true ∧
    ((set_revision accTwoVersions (PyV.vint 9)).1.version =
        accTwoVersions.version ∧
      (set_revision accTwoVersions (PyV.vint 9)).1.revision =
        accTwoVersions.revision ∧
      (set_revision accTwoVersions (PyV.vint 9)).1.freq =
        accTwoVersions.freq ∧
      (set_version accTwoVersions (PyV.vint 1)).1.version =
        accTwoVersions.version ∧
      (set_version accTwoVersions (PyV.vint 1)).1.freq =
        accTwoVersions.freq) :=
  ⟨by decide, by decide,
    C1_atomicity_amended accTwoVersions (PyV.vint 9) (PyV.vint 1)
      (by decide) (by decide)⟩

/-! ### C2 (counterexample; the amended theorem follows below) -/

/-- Claim C2, counterexample: after successfully adding the files
(1,0,1) and then (2,0,2) — all versions, revisions and frequencies
plain integers — the set of files matching the then-current pins is
empty: the freq pin stays at 1 while version and revision auto-select
to the new file. -/
theorem C2_autoselect_counterexample :
    filtered_files accStaleFreq = [] ∧
    accStaleFreq.version = PyV.vint 2 ∧
    accStaleFreq.revision = PyV.vint 0 ∧
    accStaleFreq.freq = PyV.vint 1 := by
  decide

/-! ### C3 -/

/-- Lexicographic (code-point) order on strings, the tie-break order
named by the specification for ambiguous resolution. -/
def charsLt : List Char → List Char → Bool
  | [], [] => false
  | [], _ :: _ => true
  | _ :: _, [] => false
  | a :: as, b :: bs =>
      if a.val < b.val then true
      else if b.val < a.val then false
      else charsLt as bs

/-- Lexical order on paths (spec wording: "lexical order of path"). -/
def pathLexLt (s t : String) : Bool := charsLt s.data t.data

/-- The conjunction of the three per-attribute pin tests applied by
`_filtered_files` with no keyword arguments. -/
def matchPins (a : DataAccessor) (f : FAAMFile) : Bool :=
  (isBlank a.version || decide (f.version = a.version)) &&
  (isBlank a.revision || decide (f.revision = a.revision)) &&
  (isBlank a.freq || decide (f.freq = a.freq))

/-- The sequential per-attribute filtering of `_filtered_files()` equals
one pass of the conjunctive predicate over the stored file list, in
insertion order. -/
theorem filtered_files_eq_filter (a : DataAccessor) :
    filtered_files a = a.files.filter (matchPins a) := by
  unfold filtered_files filteredWith matchPins
  unfold DataAccessor.version DataAccessor.revision
  by_cases hv : isBlank a.ver <;>
    by_cases hr : isBlank a.rev <;>
      by_cases hf : isBlank a.freq <;>
        simp [hv, hr, hf, List.filter_filter, Bool.and_comm,
          Bool.and_left_comm, Bool.and_assoc]

/-- Claim C3, counterexample: with two records matching the pins, the
one added first ("b.nc") is returned even though "a.nc" comes first in
lexical order of path — resolution follows insertion order, not lexical
order. -/
theorem C3_resolve_counterexample :
    file accDup = some "b.nc" ∧
    (filtered_files accDup).map FAAMFile.path = ["b.nc", "a.nc"] ∧
    pathLexLt "a.nc" "b.nc" = true ∧
    file accDup ≠ some "a.nc" := by
  decide

/-- Claim C3 amended: resolving the current file returns the path of
the first record, in file-insertion order, among those matching the
current pins; it fails (an `IndexError`, carrying no pin values) when
no record matches; when more than one matches, a warning is printed and
the insertion-order head — not the lexical-order head — is returned. -/
theorem C3_resolve_amended (a : DataAccessor) :
    file a = ((a.files.filter (matchPins a)).head?).map FAAMFile.path := by
  unfold file
  rw [filtered_files_eq_filter]
  cases a.files.filter (matchPins a) with
  | nil => rfl
  | cons f fs => rfl

/-! ### C4 -/

/-- Claim C4, counterexample: on the accessor holding only the (1,0,1)
file, setting the frequency pin to 99 — a value no record carries —
does not raise and commits the pin, leaving the filtered set empty. -/
theorem C4_setter_validation_counterexample :
    (set_freq accSingle (PyV.vint 99)).2 = false ∧
    (set_freq accSingle (PyV.vint 99)).1.freq = PyV.vint 99 ∧
    filtered_files (set_freq accSingle (PyV.vint 99)).1 = [] := by
  decide

/-- Claim C4 amended: the version and revision setters do validate
(whenever they return without raising, the new pin combination matches
at least one record), but the frequency setter performs no validation
at all: it never raises and always commits the requested pin (`None`
being replaced by the FULL sentinel). -/
theorem C4_setter_validation_amended (a : DataAccessor) (q r v : PyV)
    (hr : (set_revision a r).2 = false)
    (hv : (set_version a v).2 = false) :
    (set_freq a q).2 = false ∧
    (set_freq a q).1.frq =
      (if q = PyV.vnone then PyV.vint FULL_FREQ else q) ∧
    filtered_files (set_revision a r).1 ≠ [] ∧
    filtered_files (set_version a v).1 ≠ [] := by
  rw [set_freq_def]
  rw [set_revision_def] at hr ⊢
  rw [set_version_def] at hv ⊢
  refine ⟨?_, ?_, ?_, ?_⟩
  · by_cases h : q = PyV.vnone
    · rw [if_pos h]
    · rw [if_neg h]
  · by_cases h : q = PyV.vnone
    · rw [if_pos h, if_pos h]
    · rw [if_neg h, if_neg h]
  · by_cases h1 : filtered_files { a with rev := r } = []
    · rw [if_pos h1] at hr
      exact Bool.noConfusion hr
    · rw [if_neg h1]
      exact h1
  · by_cases h2 : filtered_files (verSetProbe a v) = []
    · rw [if_pos h2] at hv
      exact Bool.noConfusion hv
    · rw [if_neg h2]
      exact h2

/-- Witness for `C4_setter_validation_amended`: on the single-file
accessor, the revision setter succeeds for revision 0 and the version
setter succeeds for version 1. -/
theorem C4_setter_validation_witness :
    (set_revision accSingle (PyV.vint 0)).2 = false ∧
    (set_version accSingle (PyV.vint 1)).2 = false ∧
    ((set_freq accSingle (PyV.vint 5)).2 = false ∧
      (set_freq accSingle (PyV.vint 5)).1.frq =
        (if (PyV.vint 5) = PyV.vnone then PyV.vint FULL_FREQ
          else PyV.vint 5) ∧
      filtered_files (set_revision accSingle (PyV.vint 0)).1 ≠ [] ∧
      filtered_files (set_version accSingle (PyV.vint 1)).1 ≠ []) :=
  ⟨by decide, by decide,
    C4_setter_validation_amended accSingle (PyV.vint 5) (PyV.vint 0)
      (PyV.vint 1) (by decide) (by decide)⟩

/-! ### C8 -/

/-- File (1,0,1) for the auto-selection trace. -/
def fileH1 : FAAMFile :=
  { path := "h1.nc", version := PyV.vint 1, revision := PyV.vint 0,
    freqRaw := 1 }

/-- File (1,1,1) for the auto-selection trace. -/
def fileH2 : FAAMFile :=
  { path := "h2.nc", version := PyV.vint 1, revision := PyV.vint 1,
    freqRaw := 1 }

/-- File (2,0,1) for the auto-selection trace. -/
def fileH3 : FAAMFile :=
  { path := "h3.nc", version := PyV.vint 2, revision := PyV.vint 0,
    freqRaw := 1 }

/-- Claim C8, confirmed: after adding exactly (1,0,1), (1,1,1), (2,0,1)
in that order, the selected pins are version 2, revision 0,
frequency 1. -/
theorem C8_autoselect_trace :
    (add_file (add_file (add_file DataAccessor.init fileH1) fileH2)
        fileH3).version = PyV.vint 2 ∧
    (add_file (add_file (add_file DataAccessor.init fileH1) fileH2)
        fileH3).revision = PyV.vint 0 ∧
    (add_file (add_file (add_file DataAccessor.init fileH1) fileH2)
        fileH3).freq = PyV.vint 1 := by
  decide

end Faam

namespace Faam

/-! ### Properties of `pyMax` over all-integer lists -/

/-- The fold underlying `pyMax`, over integer values only, computes an
upper bound that is attained by the accumulator or a list element. -/
theorem pyFold_int (xs : List PyV) : ∀ (c : ℤ),
    (∀ x ∈ xs, ∃ n, x = PyV.vint n) →
    ∃ m, xs.foldl (fun acc y =>
        acc.bind (fun w => (pyLt w y).map (fun b => if b then y else w)))
        (some (PyV.vint c)) = some (PyV.vint m) ∧
      c ≤ m ∧ (m = c ∨ PyV.vint m ∈ xs) ∧
      ∀ k, PyV.vint k ∈ xs → k ≤ m := by
  induction xs with
  | nil =>
      intro c _
      exact ⟨c, rfl, le_refl c, Or.inl rfl, by simp⟩
  | cons y ys ih =>
      intro c h
      obtain ⟨d, rfl⟩ := h y (List.mem_cons_self y ys)
      have hys : ∀ x ∈ ys, ∃ n, x = PyV.vint n :=
        fun x hx => h x (List.mem_cons_of_mem _ hx)
      simp only [List.foldl_cons]
      by_cases hcd : c < d
      · have estep : (some (PyV.vint c)).bind
            (fun w => (pyLt w (PyV.vint d)).map
              (fun b => if b then PyV.vint d else w)) = some (PyV.vint d) := by
          simp [pyLt, hcd]
        rw [estep]
        obtain ⟨m, e, le1, mem1, bd⟩ := ih d hys
        refine ⟨m, e, le_of_lt (lt_of_lt_of_le hcd le1), ?_, ?_⟩
        · rcases mem1 with h1 | h1
          · exact Or.inr (by rw [h1]; exact List.mem_cons_self _ _)
          · exact Or.inr (List.mem_cons_of_mem _ h1)
        · intro k hk
          rcases List.mem_cons.mp hk with h1 | h1
          · have hkd : k = d := PyV.vint.inj h1
            exact hkd ▸ le1
          · exact bd k h1
      · have estep : (some (PyV.vint c)).bind
            (fun w => (pyLt w (PyV.vint d)).map
              (fun b => if b then PyV.vint d else w)) = some (PyV.vint c) := by
          simp [pyLt, hcd]
        rw [estep]
        obtain ⟨m, e, le1, mem1, bd⟩ := ih c hys
        refine ⟨m, e, le1, ?_, ?_⟩
        · rcases mem1 with h1 | h1
          · exact Or.inl h1
          · exact Or.inr (List.mem_cons_of_mem _ h1)
        · intro k hk
          rcases List.mem_cons.mp hk with h1 | h1
          · have hkd : k = d := PyV.vint.inj h1
            exact hkd ▸ le_trans (le_of_not_lt hcd) le1
          · exact bd k h1

/-- Python `max` over a non-empty list of integers returns an element
that bounds every other element. -/
theorem pyMax_int_spec (l : List PyV) (hne : l ≠ [])
    (hall : ∀ x ∈ l, ∃ n, x = PyV.vint n) :
    ∃ m, pyMax l = some (PyV.vint m) ∧ PyV.vint m ∈ l ∧
      ∀ k, PyV.vint k ∈ l → k ≤ m := by
  cases l with
  | nil => exact absurd rfl hne
  | cons x xs =>
      obtain ⟨c, rfl⟩ := hall x (List.mem_cons_self x xs)
      have hxs : ∀ y ∈ xs, ∃ n, y = PyV.vint n :=
        fun y hy => hall y (List.mem_cons_of_mem _ hy)
      obtain ⟨m, e, le1, mem1, bd⟩ := pyFold_int xs c hxs
      refine ⟨m, e, ?_, ?_⟩
      · rcases mem1 with h1 | h1
        · rw [h1]; exact List.mem_cons_self _ _
        · exact List.mem_cons_of_mem _ h1
      · intro k hk
        rcases List.mem_cons.mp hk with h1 | h1
        · have hkc : k = c := PyV.vint.inj h1
          exact hkc ▸ le1
        · exact bd k h1

/-! ### Field-preservation lemmas for the autoset chain -/

/-- `_autoset_freq` only ever writes the freq pin. -/
theorem autosetFreq_fields (a : DataAccessor) :
    (autosetFreq a).files = a.files ∧ (autosetFreq a).ver = a.ver ∧
    (autosetFreq a).rev = a.rev := by
  unfold autosetFreq
  cases pyMax ((filtered_files a).map (fun i => i.freq)) with
  | none => exact ⟨rfl, rfl, rfl⟩
  | some m => exact ⟨rfl, rfl, rfl⟩

/-- `_autoset_file` never changes the stored file list. -/
theorem autosetFile_files (a : DataAccessor) :
    (autosetFile a).files = a.files := by
  unfold autosetFile
  rw [(autosetFreq_fields _).1]
  rw [(autosetRevision_ver_frq _).2.2]
  unfold autosetVersion
  cases pyMax (a.files.map (fun i => i.version)) with
  | none => rfl
  | some m => rw [(autosetRevision_ver_frq _).2.2]

/-- `add_file` appends the new record to the stored list. -/
theorem add_file_files (a : DataAccessor) (f : FAAMFile) :
    (add_file a f).files = a.files ++ [f] := by
  unfold add_file
  rw [autosetFile_files]

/-- Folding `add_file` over a list of records appends them all. -/
theorem foldl_add_file_files (gs : List FAAMFile) : ∀ (s : DataAccessor),
    (List.foldl add_file s gs).files = s.files ++ gs := by
  induction gs with
  | nil => intro s; simp
  | cons g gs ih =>
      intro s
      simp only [List.foldl_cons]
      rw [ih, add_file_files]
      simp

/-- After `add_file`, when every stored version is an integer, the
version pin is the maximum stored version. -/
theorem add_file_version_max (s : DataAccessor) (f : FAAMFile)
    (hall : ∀ g ∈ s.files ++ [f], ∃ n, g.version = PyV.vint n) :
    ∃ vm, (add_file s f).version = PyV.vint vm ∧
      PyV.vint vm ∈ (s.files ++ [f]).map (fun g => g.version) ∧
      ∀ k, PyV.vint k ∈ (s.files ++ [f]).map (fun g => g.version) →
        k ≤ vm := by
  have hne : (s.files ++ [f]).map (fun g => g.version) ≠ [] := by simp
  have hints : ∀ x ∈ (s.files ++ [f]).map (fun g => g.version),
      ∃ n, x = PyV.vint n := by
    intro x hx
    obtain ⟨g, hg, rfl⟩ := List.mem_map.mp hx
    exact hall g hg
  obtain ⟨vm, e, hmem, hbd⟩ :=
    pyMax_int_spec ((s.files ++ [f]).map (fun g => g.version)) hne hints
  refine ⟨vm, ?_, hmem, hbd⟩
  unfold add_file autosetFile
  unfold DataAccessor.version
  rw [(autosetFreq_fields _).2.1, (autosetRevision_ver_frq _).1]
  unfold autosetVersion
  simp only
  rw [e]
  rw [(autosetRevision_ver_frq _).1]

end Faam

namespace Faam

/-- Whether a Python value is an `int`. -/
def PyV.isInt : PyV → Bool
  | PyV.vint _ => true
  | _ => false

/-- Characterization of `PyV.isInt`. -/
theorem PyV.isInt_iff (p : PyV) : p.isInt = true ↔ ∃ n, p = PyV.vint n := by
  cases p <;> simp [PyV.isInt]

/-- `_filtered_files(revision=None, freq=None)` filters on the version
pin only (or not at all when the version pin is blank). -/
theorem filteredWith_version_only (x : DataAccessor) :
    filteredWith x none (some PyV.vnone) (some PyV.vnone) =
      if isBlank x.version then x.files
      else x.files.filter (fun g => decide (g.version = x.version)) := rfl

/-- The blank test accepts Python `None`. -/
theorem isBlank_vnone : isBlank PyV.vnone = true := rfl

/-- `_filtered_files(freq=None)` with non-blank version and revision
pins filters on exactly those two pins, in order. -/
theorem filteredWith_noFreq (x : DataAccessor)
    (hv : isBlank x.version = false) (hr : isBlank x.revision = false) :
    filteredWith x none none (some PyV.vnone) =
      (x.files.filter (fun g => decide (g.version = x.version))).filter
        (fun g => decide (g.revision = x.revision)) := by
  unfold filteredWith
  simp only [Option.getD_none, Option.getD_some]
  rw [hv, hr]
  simp [isBlank_vnone]

/-- After `add_file` on all-integer version/revision records, the
version pin is the maximum version, the revision pin is the maximum
revision within that version, and some stored record carries exactly
that (version, revision) pair. -/
theorem add_file_revision_spec (s : DataAccessor) (f : FAAMFile)
    (hall : ∀ g ∈ s.files ++ [f],
      (∃ n, g.version = PyV.vint n) ∧ (∃ n, g.revision = PyV.vint n)) :
    ∃ vm rm, (add_file s f).version = PyV.vint vm ∧
      (add_file s f).revision = PyV.vint rm ∧
      ∃ g1 ∈ s.files ++ [f],
        g1.version = PyV.vint vm ∧ g1.revision = PyV.vint rm := by
  have hvints : ∀ x ∈ (s.files ++ [f]).map (fun g => g.version),
      ∃ n, x = PyV.vint n := by
    intro x hx
    obtain ⟨g, hg, rfl⟩ := List.mem_map.mp hx
    exact (hall g hg).1
  obtain ⟨vm, hvm, hvmem, hvbd⟩ :=
    pyMax_int_spec ((s.files ++ [f]).map (fun g => g.version))
      (by simp) hvints
  have hAV : add_file s f =
      autosetFreq (autosetRevision (autosetRevision
        ⟨s.files ++ [f], PyV.vint vm, s.rev, s.frq⟩)) := by
    unfold add_file autosetFile autosetVersion
    dsimp only
    rw [hvm]
  have hvf : filteredWith ⟨s.files ++ [f], PyV.vint vm, s.rev, s.frq⟩
      none (some PyV.vnone) (some PyV.vnone) =
      (s.files ++ [f]).filter (fun g => decide (g.version = PyV.vint vm)) :=
    rfl
  obtain ⟨g0, hg0L, hg0v⟩ := List.mem_map.mp hvmem
  have hg0f : g0 ∈ (s.files ++ [f]).filter
      (fun g => decide (g.version = PyV.vint vm)) :=
    List.mem_filter.mpr ⟨hg0L, by rw [hg0v]; exact decide_eq_true rfl⟩
  have hrne : ((s.files ++ [f]).filter
      (fun g => decide (g.version = PyV.vint vm))).map
        (fun g => g.revision) ≠ [] := by
    intro hc
    rw [List.map_eq_nil_iff] at hc
    rw [hc] at hg0f
    exact absurd hg0f (List.not_mem_nil g0)
  have hrints : ∀ x ∈ ((s.files ++ [f]).filter
      (fun g => decide (g.version = PyV.vint vm))).map
        (fun g => g.revision), ∃ n, x = PyV.vint n := by
    intro x hx
    obtain ⟨g, hg, rfl⟩ := List.mem_map.mp hx
    exact (hall g (List.mem_of_mem_filter hg)).2
  obtain ⟨rm, hrm, hrmem, hrbd⟩ :=
    pyMax_int_spec _ hrne hrints
  have hAR1 : autosetRevision ⟨s.files ++ [f], PyV.vint vm, s.rev, s.frq⟩ =
      ⟨s.files ++ [f], PyV.vint vm, PyV.vint rm, s.frq⟩ := by
    unfold autosetRevision
    rw [hvf, hrm]
  have hAR2 : autosetRevision
      ⟨s.files ++ [f], PyV.vint vm, PyV.vint rm, s.frq⟩ =
      ⟨s.files ++ [f], PyV.vint vm, PyV.vint rm, s.frq⟩ := by
    unfold autosetRevision
    have hvf2 : filteredWith
        ⟨s.files ++ [f], PyV.vint vm, PyV.vint rm, s.frq⟩
        none (some PyV.vnone) (some PyV.vnone) =
        (s.files ++ [f]).filter
          (fun g => decide (g.version = PyV.vint vm)) := rfl
    rw [hvf2, hrm]
  obtain ⟨g1, hg1f, hg1r⟩ := List.mem_map.mp hrmem
  have hg1L : g1 ∈ s.files ++ [f] := List.mem_of_mem_filter hg1f
  have hg1v : g1.version = PyV.vint vm := by
    have := (List.mem_filter.mp hg1f).2
    exact of_decide_eq_true this
  refine ⟨vm, rm, ?_, ?_, g1, hg1L, hg1v, hg1r⟩
  · rw [hAV, hAR1, hAR2]
    unfold DataAccessor.version
    rw [(autosetFreq_fields _).2.1]
  · rw [hAV, hAR1, hAR2]
    unfold DataAccessor.revision
    rw [(autosetFreq_fields _).2.2]

/-- Claim C2 amended: after any `add_file` on an accessor whose records
(including the new one) all carry integer versions and revisions, the
set of records matching the version and revision pins (the freq pin
excluded) is non-empty; the fully filtered set can still be empty
because the freq pin is not re-validated (see the counterexample). -/
theorem C2_autoselect_amended (a : DataAccessor) (f : FAAMFile)
    (hall : ∀ g ∈ a.files ++ [f],
      (g.version).isInt = true ∧ (g.revision).isInt = true) :
    filteredWith (add_file a f) none none (some PyV.vnone) ≠ [] := by
  have hall' : ∀ g ∈ a.files ++ [f],
      (∃ n, g.version = PyV.vint n) ∧ (∃ n, g.revision = PyV.vint n) :=
    fun g hg => ⟨(PyV.isInt_iff _).mp (hall g hg).1,
      (PyV.isInt_iff _).mp (hall g hg).2⟩
  obtain ⟨vm, rm, hv, hr, g1, hg1L, hg1v, hg1r⟩ :=
    add_file_revision_spec a f hall'
  have hbv : isBlank (add_file a f).version = false := by rw [hv]; rfl
  have hbr : isBlank (add_file a f).revision = false := by rw [hr]; rfl
  rw [filteredWith_noFreq _ hbv hbr]
  have hg1m : g1 ∈ ((add_file a f).files.filter
      (fun g => decide (g.version = (add_file a f).version))).filter
        (fun g => decide (g.revision = (add_file a f).revision)) := by
    refine List.mem_filter.mpr ⟨List.mem_filter.mpr ⟨?_, ?_⟩, ?_⟩
    · rw [add_file_files]; exact hg1L
    · rw [hv, hg1v]; exact decide_eq_true rfl
    · rw [hr, hg1r]; exact decide_eq_true rfl
  exact List.ne_nil_of_mem hg1m

/-- Witness for `C2_autoselect_amended`: adding the (1,0,1) file to the
fresh accessor. -/
theorem C2_autoselect_witness :
    filteredWith (add_file DataAccessor.init fileV1R0F1) none none
      (some PyV.vnone) ≠ [] :=
  C2_autoselect_amended DataAccessor.init fileV1R0F1 (by decide)

/-! ### C10 -/

/-- The version pin after folding `add_file` over a non-empty list of
all-integer-version records equals the maximum version of the list. -/
theorem foldl_version_max (fs : List FAAMFile) (hne : fs ≠ [])
    (hall : ∀ g ∈ fs, ∃ n, g.version = PyV.vint n) :
    ∃ vm, (List.foldl add_file DataAccessor.init fs).version =
        PyV.vint vm ∧
      PyV.vint vm ∈ fs.map (fun g => g.version) ∧
      ∀ k, PyV.vint k ∈ fs.map (fun g => g.version) → k ≤ vm := by
  have e := List.dropLast_append_getLast hne
  have e2 : List.foldl add_file DataAccessor.init fs =
      add_file (List.foldl add_file DataAccessor.init fs.dropLast)
        (fs.getLast hne) := by
    conv_lhs => rw [← e]
    rw [List.foldl_append]
    rfl
  have hfiles : (List.foldl add_file DataAccessor.init fs.dropLast).files =
      fs.dropLast := by
    rw [foldl_add_file_files]
    rfl
  have hall' : ∀ g ∈ (List.foldl add_file DataAccessor.init
      fs.dropLast).files ++ [fs.getLast hne], ∃ n, g.version = PyV.vint n := by
    rw [hfiles, e]
    exact hall
  obtain ⟨vm, hv, hmem, hbd⟩ :=
    add_file_version_max (List.foldl add_file DataAccessor.init fs.dropLast)
      (fs.getLast hne) hall'
  rw [hfiles, e] at hmem hbd
  exact ⟨vm, by rw [e2]; exact hv, hmem, hbd⟩

/-- Claim C10, confirmed: with all-integer versions, after each
`add_file` the version pin equals the maximum version over the files
added so far, and is therefore non-decreasing across `add_file`
calls. -/
theorem C10_version_monotone (fs : List FAAMFile)
    (hall : ∀ g ∈ fs, (g.version).isInt = true)
    (n m : ℕ) (hn : 0 < n) (hnm : n ≤ m) (hm : m ≤ fs.length) :
    ∃ va vb : ℤ,
      (List.foldl add_file DataAccessor.init (fs.take n)).version =
        PyV.vint va ∧
      (List.foldl add_file DataAccessor.init (fs.take m)).version =
        PyV.vint vb ∧
      PyV.vint va ∈ (fs.take n).map (fun g => g.version) ∧
      (∀ k, PyV.vint k ∈ (fs.take n).map (fun g => g.version) → k ≤ va) ∧
      PyV.vint vb ∈ (fs.take m).map (fun g => g.version) ∧
      (∀ k, PyV.vint k ∈ (fs.take m).map (fun g => g.version) → k ≤ vb) ∧
      va ≤ vb := by
  have hverex : ∀ g ∈ fs, ∃ w, g.version = PyV.vint w :=
    fun g hg => (PyV.isInt_iff _).mp (hall g hg)
  have hnne : fs.take n ≠ [] := by
    rw [← List.length_pos, List.length_take]
    exact lt_min hn (lt_of_lt_of_le hn (le_trans hnm hm))
  have hmne : fs.take m ≠ [] := by
    rw [← List.length_pos, List.length_take]
    exact lt_min (lt_of_lt_of_le hn hnm)
      (lt_of_lt_of_le (lt_of_lt_of_le hn hnm) hm)
  obtain ⟨va, hva, hamem, habd⟩ := foldl_version_max (fs.take n) hnne
    (fun g hg => hverex g (List.take_subset n fs hg))
  obtain ⟨vb, hvb, hbmem, hbbd⟩ := foldl_version_max (fs.take m) hmne
    (fun g hg => hverex g (List.take_subset m fs hg))
  have hsub : (fs.take n).map (fun g => g.version) ⊆
      (fs.take m).map (fun g => g.version) := by
    have h1 : fs.take n = (fs.take m).take n := by
      rw [List.take_take, min_eq_left hnm]
    rw [h1]
    exact List.map_subset _ (List.take_subset _ _)
  exact ⟨va, vb, hva, hvb, hamem, habd, hbmem, hbbd, hbbd va (hsub hamem)⟩

/-- Witness for `C10_version_monotone`: the two-file list
[(1,0,1), (2,0,1)] with n = 1, m = 2. -/
theorem C10_version_monotone_witness :
    ∃ va vb : ℤ,
      (List.foldl add_file DataAccessor.init
        ([fileH1, fileH3].take 1)).version = PyV.vint va ∧
      (List.foldl add_file DataAccessor.init
        ([fileH1, fileH3].take 2)).version = PyV.vint vb ∧
      PyV.vint va ∈ ([fileH1, fileH3].take 1).map (fun g => g.version) ∧
      (∀ k, PyV.vint k ∈ ([fileH1, fileH3].take 1).map
        (fun g => g.version) → k ≤ va) ∧
      PyV.vint vb ∈ ([fileH1, fileH3].take 2).map (fun g => g.version) ∧
      (∀ k, PyV.vint k ∈ ([fileH1, fileH3].take 2).map
        (fun g => g.version) → k ≤ vb) ∧
      va ≤ vb :=
  C10_version_monotone [fileH1, fileH3] (by decide) 1 2 (by decide)
    (by decide) (by decide)

end Faam


namespace Faam

/-!
Part 2 embeds the steady-level-run chunking step of
`faamda/wrapper/accessors/core.py` (`CoreAccessor.slrs`): the
`max_length < min_length` parameter guard, the per-segment `_add_slrs`
helper (with Python's `iloc[:-(len % max_length)]` slicing, where a
zero remainder yields the empty slice), and `np.split` (an error —
modelled as `none` — unless the list divides evenly into a positive
number of sections).
-/

/-- `n` consecutive chunks of `k` elements each, from the front. -/
def splitN {α : Type} : ℕ → ℕ → List α → List (List α)
  | 0, _, _ => []
  | n + 1, k, l => l.take k :: splitN n k (l.drop k)

/-- Embedding of `np.split(l, n)`: an error unless `n` is positive and
`n` divides the length evenly; otherwise `n` equal chunks. -/
def npSplit {α : Type} (l : List α) (n : ℕ) : Option (List (List α)) :=
  if n = 0 then none
  else if l.length % n ≠ 0 then none
  else some (splitN n (l.length / n) l)

/-- Embedding of `_add_slrs(slrs, group)`: with `max_length` unset the
segment is appended whole; otherwise the segment is sliced as
`iloc[:-(len % max_length)]` (empty when the remainder is zero), split
into `len // max_length` groups, and the complementary remainder slice
is appended only when its length reaches `min_length`. -/
def addSlrs {α : Type} (maxLength : Option ℕ) (minLength : ℕ)
    (slrs : List (List α)) (gdf : List α) : Option (List (List α)) :=
  match maxLength with
  | none => some (slrs ++ [gdf])
  | some maxLen =>
      let numGroups := gdf.length / maxLen
      let r := gdf.length % maxLen
      let headPart := if r = 0 then [] else gdf.take (gdf.length - r)
      let remPart := if r = 0 then gdf else gdf.drop (gdf.length - r)
      (npSplit headPart numGroups).map (fun gdfs =>
        if minLength ≤ remPart.length then (slrs ++ gdfs) ++ [remPart]
        else slrs ++ gdfs)

/-- The emission loop of `slrs` over the kept segments: segments
shorter than `min_length` (the window size) are skipped, the rest are
chunked by `_add_slrs`; a chunking error aborts the call. -/
def slrsEmitGo {α : Type} (minLength : ℕ) (maxLength : Option ℕ) :
    List (List α) → List (List α) → Option (List (List α))
  | slrs, [] => some slrs
  | slrs, seg :: rest =>
      if seg.length < minLength then slrsEmitGo minLength maxLength slrs rest
      else
        match addSlrs maxLength minLength slrs seg with
        | none => none
        | some slrs2 => slrsEmitGo minLength maxLength slrs2 rest

/-- The up-front parameter test
`max_length is not None and max_length < min_length`. -/
def slrsGuardBad (minLength : ℕ) : Option ℕ → Bool
  | some maxLen => decide (maxLen < minLength)
  | none => false

/-- Embedding of the `slrs` emission stage: the guard raises
`ValueError` (modelled as `none`) when `max_length < min_length`,
otherwise the loop runs over the candidate segments. -/
def slrsEmit {α : Type} (minLength : ℕ) (maxLength : Option ℕ)
    (segs : List (List α)) : Option (List (List α)) :=
  if slrsGuardBad minLength maxLength then none
  else slrsEmitGo minLength maxLength [] segs

/-- `splitN` produces exactly `n` chunks. -/
theorem splitN_length {α : Type} (n k : ℕ) :
    ∀ (l : List α), (splitN n k l).length = n := by
  induction n with
  | zero => intro l; rfl
  | succ n ih =>
      intro l
      simp [splitN, ih]

/-- Every chunk of `splitN` has length `k` when the list is long
enough. -/
theorem splitN_chunk_len {α : Type} (n k : ℕ) :
    ∀ (l : List α), n * k ≤ l.length →
      ∀ c ∈ splitN n k l, c.length = k := by
  induction n with
  | zero => intro l _ c hc; exact absurd hc (List.not_mem_nil c)
  | succ n ih =>
      intro l hlen c hc
      rcases List.mem_cons.mp hc with h1 | h1
      · have hk : k ≤ l.length := by
          calc k ≤ (n + 1) * k := Nat.le_mul_of_pos_left k (Nat.succ_pos n)
          _ ≤ l.length := hlen
        rw [h1, List.length_take]
        exact min_eq_left hk
      · refine ih (l.drop k) ?_ c h1
        rw [List.length_drop]
        have hexp : (n + 1) * k = n * k + k := by ring
        omega

/-- The chunks of `splitN` concatenate back to the list when the length
is exactly `n * k`. -/
theorem splitN_flatten {α : Type} (n k : ℕ) :
    ∀ (l : List α), l.length = n * k → (splitN n k l).flatten = l := by
  induction n with
  | zero =>
      intro l hl
      have hnil : l = [] := List.eq_nil_of_length_eq_zero (by simpa using hl)
      simp [splitN, hnil]
  | succ n ih =>
      intro l hl
      have hd : (l.drop k).length = n * k := by
        rw [List.length_drop, hl]
        have hexp : (n + 1) * k = n * k + k := by ring
        omega
      simp only [splitN, List.flatten_cons]
      rw [ih (l.drop k) hd]
      exact List.take_append_drop k l

set_option maxRecDepth 100000 in
/-- Claim C5, counterexample: (i) the claim's own instance — a
250-sample segment with `max_length=100`, `min_length=120` — does not
produce two 100-sample chunks: `slrs` rejects `max_length < min_length`
up front with a `ValueError`; (ii) with valid parameters
(`min_length = max_length = 100`) a 200-sample segment, an exact
multiple of `max_length`, is emitted as two *empty* chunks plus the
whole 200-sample segment (the `iloc[:-0]` slip), not as two 100-sample
chunks; (iii) a 120-sample segment with `max_length = 150` makes
`np.split` fail instead of emitting the remainder whole. -/
theorem C5_chunking_counterexample :
    slrsEmit 120 (some 100) [List.range 250] = none ∧
    slrsEmit 100 (some 100) [List.range 200] =
      some [[], [], List.range 200] ∧
    slrsEmit 100 (some 150) [List.range 120] = none := by
  refine ⟨rfl, ?_, ?_⟩
  · show slrsEmitGo 100 (some 100) [] [List.range 200] =
      some [[], [], List.range 200]
    have h200 : (List.range 200).length = 200 := List.length_range 200
    unfold slrsEmitGo
    rw [if_neg (by rw [h200]; omega)]
    have hadd : addSlrs (some 100) 100 [] (List.range 200) =
        some [[], [], List.range 200] := by
      unfold addSlrs npSplit
      rw [h200]
      norm_num
      rfl
    rw [hadd]
    rfl
  · show slrsEmitGo 100 (some 150) [] [List.range 120] = none
    have h120 : (List.range 120).length = 120 := List.length_range 120
    unfold slrsEmitGo
    rw [if_neg (by rw [h120]; omega)]
    have hadd : addSlrs (some 150) 100 [] (List.range 120) = none := by
      unfold addSlrs npSplit
      rw [h120]
      norm_num
    rw [hadd]

/-- Claim C5 amended: with `min_length ≤ max_length` (otherwise the
guard raises), `0 < max_length`, and a kept segment strictly longer
than `max_length` whose length is not an exact multiple of it, the
emitted output is exactly `L / max_length` chunks of exactly
`max_length` samples, followed by the `L % max_length`-sample remainder
exactly when that remainder is at least `min_length`, the chunks
concatenating back to the segment (to its first `L - L % max_length`
samples when the remainder is dropped).  The excluded cases diverge:
`max_length < min_length` raises, an exact multiple emits empty chunks
plus the whole segment, and a segment not longer than `max_length`
makes `np.split` fail. -/
theorem C5_chunking_amended {α : Type} (minLen maxLen : ℕ) (seg : List α)
    (hmm : minLen ≤ maxLen) (hpos : 0 < maxLen)
    (hlt : maxLen < seg.length) (hnd : seg.length % maxLen ≠ 0) :
    ∃ out : List (List α),
      slrsEmit minLen (some maxLen) [seg] = some out ∧
      out.length = seg.length / maxLen +
        (if minLen ≤ seg.length % maxLen then 1 else 0) ∧
      (∀ c ∈ out.take (seg.length / maxLen), c.length = maxLen) ∧
      (∀ c ∈ out.drop (seg.length / maxLen),
        c.length = seg.length % maxLen) ∧
      out.flatten = (if minLen ≤ seg.length % maxLen then seg
        else seg.take (seg.length - seg.length % maxLen)) := by
  have hdm : maxLen * (seg.length / maxLen) + seg.length % maxLen =
      seg.length := Nat.div_add_mod seg.length maxLen
  have hheadlen : (seg.take (seg.length - seg.length % maxLen)).length =
      maxLen * (seg.length / maxLen) := by
    rw [List.length_take]
    omega
  have hng : seg.length / maxLen ≠ 0 := by
    have h1 : 1 ≤ seg.length / maxLen :=
      (Nat.one_le_div_iff hpos).mpr (le_of_lt hlt)
    omega
  have hremlen : (seg.drop (seg.length - seg.length % maxLen)).length =
      seg.length % maxLen := by
    rw [List.length_drop]
    omega
  set A := splitN (seg.length / maxLen) maxLen
    (seg.take (seg.length - seg.length % maxLen)) with hA
  have hnps : npSplit (seg.take (seg.length - seg.length % maxLen))
      (seg.length / maxLen) = some A := by
    unfold npSplit
    rw [if_neg hng, hheadlen]
    rw [if_neg (by simp [Nat.mul_mod_left])]
    rw [hA]
    rw [Nat.mul_div_cancel _ (Nat.pos_of_ne_zero hng)]
  have hadd : addSlrs (some maxLen) minLen [] seg =
      some (if minLen ≤ seg.length % maxLen then
        A ++ [seg.drop (seg.length - seg.length % maxLen)] else A) := by
    unfold addSlrs
    simp only [if_neg hnd]
    rw [hnps, Option.map_some']
    rw [hremlen]
    by_cases hk : minLen ≤ seg.length % maxLen
    · rw [if_pos hk, if_pos hk]
      simp
    · rw [if_neg hk, if_neg hk]
      simp
  have hemit : slrsEmit minLen (some maxLen) [seg] =
      some (if minLen ≤ seg.length % maxLen then
        A ++ [seg.drop (seg.length - seg.length % maxLen)] else A) := by
    unfold slrsEmit
    rw [if_neg (by simp only [slrsGuardBad]; simp; omega)]
    unfold slrsEmitGo
    rw [if_neg (by omega), hadd]
    rfl
  have hsplitlen : A.length = seg.length / maxLen := by
    rw [hA]; exact splitN_length _ _ _
  have hchunklen : ∀ c ∈ A, c.length = maxLen := by
    rw [hA]
    refine splitN_chunk_len _ _ _ ?_
    rw [hheadlen, Nat.mul_comm]
  have hflat : A.flatten = seg.take (seg.length - seg.length % maxLen) := by
    rw [hA]
    refine splitN_flatten _ _ _ ?_
    rw [hheadlen, Nat.mul_comm]
  by_cases hk : minLen ≤ seg.length % maxLen
  · refine ⟨A ++ [seg.drop (seg.length - seg.length % maxLen)],
      by rw [hemit, if_pos hk], ?_, ?_, ?_, ?_⟩
    · rw [List.length_append, hsplitlen, if_pos hk]
      rfl
    · intro c hc
      rw [← hsplitlen, List.take_left] at hc
      exact hchunklen c hc
    · intro c hc
      rw [← hsplitlen, List.drop_left] at hc
      rcases List.mem_cons.mp hc with h1 | h1
      · rw [h1]; exact hremlen
      · exact absurd h1 (List.not_mem_nil c)
    · rw [List.flatten_append, hflat, if_pos hk]
      simp [List.take_append_drop]
  · refine ⟨A, by rw [hemit, if_neg hk], ?_, ?_, ?_, ?_⟩
    · rw [hsplitlen, if_neg hk]
      rfl
    · intro c hc
      exact hchunklen c (List.mem_of_mem_take hc)
    · intro c hc
      have hdropnil : A.drop (seg.length / maxLen) = [] :=
        List.drop_eq_nil_of_le (le_of_eq hsplitlen)
      rw [hdropnil] at hc
      exact absurd hc (List.not_mem_nil c)
    · rw [hflat, if_neg hk]

/-- Witness for `C5_chunking_amended`: a 250-sample segment with
`min_length = max_length = 100` (two 100-chunks, 50-sample remainder
dropped). -/
theorem C5_chunking_witness :
    ∃ out : List (List ℕ),
      slrsEmit 100 (some 100) [List.range 250] = some out ∧
      out.length = (List.range 250).length / 100 +
        (if 100 ≤ (List.range 250).length % 100 then 1 else 0) ∧
      (∀ c ∈ out.take ((List.range 250).length / 100),
        c.length = 100) ∧
      (∀ c ∈ out.drop ((List.range 250).length / 100),
        c.length = (List.range 250).length % 100) ∧
      out.flatten = (if 100 ≤ (List.range 250).length % 100 then
        List.range 250
        else (List.range 250).take
          ((List.range 250).length - (List.range 250).length % 100)) :=
  C5_chunking_amended 100 100 (List.range 250) (by decide) (by decide)
    (by simp) (by simp)

end Faam

namespace Faam

/-!
Part 3 embeds the vertical-profile detector
(`CoreAccessor.profiles` in `faamda/wrapper/accessors/core.py`).

The input is a 1 Hz table of rows `(time index, PS_RVSM, WOW_IND)`;
missing values introduced by the centered rolling mean and by `diff()`
are `none` (pandas NaN), and comparisons against NaN are false.  The
hard-coded constants of `profiles` are `rolling = 60` and
`thresh = 0.15`; `min_length` is the method's parameter.

The pandas fixed-window centered rolling mean with the default
`min_periods` places, at position `i`, the window
`[i + offset + 1 - w, i + offset]` with `offset = (w - 1) / 2`, and is
missing unless the window lies fully inside the series.  The change
detector `(col.diff() != 0).astype(int).cumsum()` followed by `groupby`
partitions the rows into the maximal runs of constant flag value, in
order; a group is kept when its flag mean is 0 (`mean() != 0` rows are
skipped — note: the *candidate* flag must be uniformly absent) and its
length is at least `min_length`.
-/

/-- The hard-coded `thresh = 0.15` of `profiles`. -/
def profThresh : ℚ := 15 / 100

/-- The hard-coded `rolling = 60` of `profiles`. -/
def profRolling : ℕ := 60

/-- Sum of `w` consecutive entries starting at `lo` (entries out of
range read as 0; the callers only use windows inside the list). -/
def windowSum (xs : List ℚ) : ℕ → ℕ → ℚ
  | _, 0 => 0
  | lo, w + 1 => xs.getD lo 0 + windowSum xs (lo + 1) w

/-- Embedding of `Series.rolling(w, center=True).mean()` for a fixed
window `w` with the default `min_periods = w`: entry `i` is the mean
over `[i + (w-1)/2 + 1 - w, i + (w-1)/2]` when that window is inside
the series, and NaN otherwise. -/
def rollMeanC (w : ℕ) (xs : List ℚ) : List (Option ℚ) :=
  (List.range xs.length).map (fun i =>
    if w ≤ i + (w - 1) / 2 + 1 ∧ i + (w - 1) / 2 < xs.length then
      some (windowSum xs (i + (w - 1) / 2 + 1 - w) w / w)
    else none)

/-- Embedding of `Series.diff()`: the first entry is NaN, and NaN
propagates through the subtraction. -/
def diffO (ms : List (Option ℚ)) : List (Option ℚ) :=
  (List.range ms.length).map (fun i =>
    if i = 0 then none
    else (ms.getD (i - 1) none).bind (fun a =>
      (ms.getD i none).map (fun b => b - a)))

/-- The 0/1 candidate column set by `.loc[delta < t] = 1`: NaN
comparisons are false. -/
def flagLt (t : ℚ) (d : Option ℚ) : Bool :=
  match d with
  | some v => decide (v < t)
  | none => false

/-- The 0/1 candidate column set by `.loc[delta > t] = 1`: NaN
comparisons are false. -/
def flagGt (t : ℚ) (d : Option ℚ) : Bool :=
  match d with
  | some v => decide (t < v)
  | none => false

/-- Fuelled maximal-constant-run segmentation (the effect of the
`diff-!= 0 → cumsum → groupby` chain): the first run extends while the
flag stays equal to the first row's flag, and the rest is segmented
recursively.  The fuel only makes the recursion structural; it is
always run with fuel ≥ length. -/
def splitRunsF : ℕ → List (ℕ × Bool) → List (List (ℕ × Bool))
  | 0, _ => []
  | _, [] => []
  | n + 1, x :: xs =>
      (x :: xs.takeWhile (fun y => y.2 == x.2)) ::
        splitRunsF n (xs.dropWhile (fun y => y.2 == x.2))

/-- Maximal constant-flag runs of a flagged row list, in order. -/
def splitRuns (l : List (ℕ × Bool)) : List (List (ℕ × Bool)) :=
  splitRunsF l.length l

/-- The group mean of the 0/1 candidate column
(`_d.profile_down.mean()`). -/
def flagMean (g : List (ℕ × Bool)) : ℚ :=
  (g.map (fun p => if p.2 then (1 : ℚ) else 0)).sum / g.length

/-- The keep-filter of the `profiles` loops: skip groups whose flag
mean is non-zero, skip groups shorter than `min_length`, and return
each kept group's time index. -/
def keepRuns (minLength : ℕ) (gs : List (List (ℕ × Bool))) :
    List (List ℕ) :=
  (gs.filter (fun g =>
    decide (flagMean g = 0) && decide (minLength ≤ g.length))).map
    (fun g => g.map (fun p => p.1))

/-- The `_df[_df.WOW_IND == 0]` row filter. -/
def airRows (rows : List (ℕ × ℚ × Bool)) : List (ℕ × ℚ × Bool) :=
  rows.filter (fun r => decide (r.2.2 = false))

/-- The airborne rows tagged with the descending-candidate flag
`delta < thresh` of the centered-rolling-mean first difference. -/
def downFlagged (rows : List (ℕ × ℚ × Bool)) : List (ℕ × Bool) :=
  ((airRows rows).map (fun r => r.1)).zip
    ((diffO (rollMeanC profRolling
      ((airRows rows).map (fun r => r.2.1)))).map (flagLt profThresh))

/-- The airborne rows tagged with the ascending-candidate flag
`delta > -thresh`. -/
def upFlagged (rows : List (ℕ × ℚ × Bool)) : List (ℕ × Bool) :=
  ((airRows rows).map (fun r => r.1)).zip
    ((diffO (rollMeanC profRolling
      ((airRows rows).map (fun r => r.2.1)))).map (flagGt (-profThresh)))

/-- Embedding of `CoreAccessor.profiles`: the pair
(ascending list, descending list) of kept run index lists. -/
def profilesEmbed (rows : List (ℕ × ℚ × Bool)) (minLength : ℕ) :
    List (List ℕ) × List (List ℕ) :=
  (keepRuns minLength (splitRuns (upFlagged rows)),
   keepRuns minLength (splitRuns (downFlagged rows)))

/-- Modelled from the spec: the `profiles` output as the claim words
it — keep the maximal constant runs on which the candidate flag is
uniformly *true* (mean == 1) of length at least `min_length`. -/
def keepRunsClaimed (minLength : ℕ) (gs : List (List (ℕ × Bool))) :
    List (List ℕ) :=
  (gs.filter (fun g =>
    decide (flagMean g = 1) && decide (minLength ≤ g.length))).map
    (fun g => g.map (fun p => p.1))

/-- Modelled from the spec: the profile detector as claim C6 describes
it, identical to `profilesEmbed` except that kept runs are those with
candidate flag uniformly true. -/
def profilesClaimed (rows : List (ℕ × ℚ × Bool)) (minLength : ℕ) :
    List (List ℕ) × List (List ℕ) :=
  (keepRunsClaimed minLength (splitRuns (upFlagged rows)),
   keepRunsClaimed minLength (splitRuns (downFlagged rows)))

end Faam

namespace Faam

/-! ### Helper lemmas about takeWhile / dropWhile boundaries -/

/-- The head of `dropWhile p l`, when present, fails `p`. -/
theorem head?_dropWhile (p : (ℕ × Bool) → Bool) :
    ∀ (l : List (ℕ × Bool)) (q : ℕ × Bool),
      (l.dropWhile p).head? = some q → p q = false := by
  intro l
  induction l with
  | nil => intro q hq; exact absurd hq (by simp)
  | cons x xs ih =>
      intro q hq
      by_cases hx : p x
      · rw [List.dropWhile_cons_of_pos hx] at hq
        exact ih q hq
      · rw [List.dropWhile_cons_of_neg hx] at hq
        have hqx : x = q := by
          simpa using hq
        rw [← hqx]
        exact Bool.eq_false_iff.mpr hx

/-- `dropWhile` distributes over an append when it does not consume the
whole first part. -/
theorem dropWhile_append_ne_nil (p : (ℕ × Bool) → Bool) :
    ∀ (l1 l2 : List (ℕ × Bool)), l1.dropWhile p ≠ [] →
      (l1 ++ l2).dropWhile p = l1.dropWhile p ++ l2 := by
  intro l1
  induction l1 with
  | nil => intro l2 h; exact absurd rfl h
  | cons x xs ih =>
      intro l2 h
      by_cases hx : p x
      · rw [List.dropWhile_cons_of_pos hx] at h ⊢
        rw [List.cons_append, List.dropWhile_cons_of_pos hx]
        exact ih l2 h
      · rw [List.dropWhile_cons_of_neg hx]
        rw [List.cons_append, List.dropWhile_cons_of_neg hx]

/-- `dropWhile` skips a fully consumed first part of an append. -/
theorem dropWhile_append_eq_nil (p : (ℕ × Bool) → Bool) :
    ∀ (l1 l2 : List (ℕ × Bool)), l1.dropWhile p = [] →
      (l1 ++ l2).dropWhile p = l2.dropWhile p := by
  intro l1
  induction l1 with
  | nil => intro l2 _; rfl
  | cons x xs ih =>
      intro l2 h
      by_cases hx : p x
      · rw [List.dropWhile_cons_of_pos hx] at h
        rw [List.cons_append, List.dropWhile_cons_of_pos hx]
        exact ih l2 h
      · rw [List.dropWhile_cons_of_neg hx] at h
        exact absurd h (by simp)

/-- `takeWhile` takes exactly the first part of an append when that
part satisfies `p` throughout and the second part starts by failing
`p`. -/
theorem takeWhile_append_all (p : (ℕ × Bool) → Bool) :
    ∀ (l1 l2 : List (ℕ × Bool)), (∀ y ∈ l1, p y = true) →
      (∀ q, l2.head? = some q → p q = false) →
      (l1 ++ l2).takeWhile p = l1 := by
  intro l1
  induction l1 with
  | nil =>
      intro l2 _ hh
      cases l2 with
      | nil => rfl
      | cons q l2t =>
          have hq : p q = false := hh q rfl
          simp [List.takeWhile_cons, hq]
  | cons x xs ih =>
      intro l2 hall hh
      have hx : p x = true := hall x (List.mem_cons_self x xs)
      rw [List.cons_append, List.takeWhile_cons_of_pos hx]
      rw [ih l2 (fun y hy => hall y (List.mem_cons_of_mem x hy)) hh]

/-- The last entry of a cons list with non-empty tail is the last entry
of the tail. -/
theorem getLast?_cons_of_ne_nil (x : ℕ × Bool) (l : List (ℕ × Bool))
    (h : l ≠ []) : (x :: l).getLast? = l.getLast? := by
  have : x :: l = [x] ++ l := rfl
  rw [this, List.getLast?_append_of_ne_nil [x] h]

/-! ### The run segmentation: unfolding and characterization -/

/-- Fuel does not matter once it covers the list length. -/
theorem splitRunsF_fuel : ∀ (n m : ℕ) (l : List (ℕ × Bool)),
    l.length ≤ n → l.length ≤ m → splitRunsF n l = splitRunsF m l := by
  intro n
  induction n with
  | zero =>
      intro m l hn _
      have : l = [] := List.eq_nil_of_length_eq_zero (Nat.le_zero.mp hn)
      subst this
      cases m <;> rfl
  | succ n ih =>
      intro m l hn hm
      cases l with
      | nil => cases m <;> rfl
      | cons x xs =>
          cases m with
          | zero => exact absurd hm (by simp)
          | succ m =>
              simp only [splitRunsF]
              congr 1
              have hd : (xs.dropWhile (fun y => y.2 == x.2)).length ≤
                  xs.length :=
                ((List.dropWhile_suffix _).sublist).length_le
              refine ih m (xs.dropWhile (fun y => y.2 == x.2)) ?_ ?_
              · exact le_trans hd (Nat.le_of_succ_le_succ hn)
              · exact le_trans hd (Nat.le_of_succ_le_succ hm)

/-- Unfolding equation for `splitRuns` on a cons cell. -/
theorem splitRuns_cons (x : ℕ × Bool) (xs : List (ℕ × Bool)) :
    splitRuns (x :: xs) =
      (x :: xs.takeWhile (fun y => y.2 == x.2)) ::
        splitRuns (xs.dropWhile (fun y => y.2 == x.2)) := by
  unfold splitRuns
  have h1 : (x :: xs).length = xs.length + 1 := rfl
  rw [h1]
  simp only [splitRunsF]
  congr 1
  refine splitRunsF_fuel _ _ _ ?_ (le_refl _)
  exact ((List.dropWhile_suffix _).sublist).length_le

/-- A maximal constant-flag run inside a flagged row list: non-empty,
constant flag `b`, and flanked by rows (when present) of a different
flag. -/
def IsMaxRun (l run : List (ℕ × Bool)) (b : Bool) : Prop :=
  run ≠ [] ∧ (∀ p ∈ run, p.2 = b) ∧
  ∃ pre post, l = pre ++ run ++ post ∧
    (∀ q, pre.getLast? = some q → q.2 ≠ b) ∧
    (∀ q, post.head? = some q → q.2 ≠ b)

/-- Soundness of the segmentation: every group it produces is a
maximal constant-flag run. -/
theorem splitRuns_sound (l : List (ℕ × Bool)) :
    ∀ g ∈ splitRuns l, ∃ b, IsMaxRun l g b := by
  have main : ∀ (n : ℕ) (l : List (ℕ × Bool)), l.length ≤ n →
      ∀ g ∈ splitRuns l, ∃ b, IsMaxRun l g b := by
    intro n
    induction n with
    | zero =>
        intro l hl g hg
        have hnil : l = [] :=
          List.eq_nil_of_length_eq_zero (Nat.le_zero.mp hl)
        subst hnil
        exact absurd hg (by simp [splitRuns, splitRunsF])
    | succ n ih =>
        intro l hl g hg
        cases l with
        | nil => exact absurd hg (by simp [splitRuns, splitRunsF])
        | cons x xs =>
            rw [splitRuns_cons] at hg
            rcases List.mem_cons.mp hg with hg1 | hg1
            · refine ⟨x.2, by simp [hg1], ?_, ?_⟩
              · intro q hq
                rw [hg1] at hq
                rcases List.mem_cons.mp hq with h1 | h1
                · rw [h1]
                · have hp := List.mem_takeWhile_imp h1
                  exact beq_iff_eq.mp hp
              · refine ⟨[], xs.dropWhile (fun y => y.2 == x.2), ?_, ?_, ?_⟩
                · rw [hg1]
                  simp [List.takeWhile_append_dropWhile]
                · intro q hq
                  exact absurd hq (by simp)
                · intro q hq
                  have hqf := head?_dropWhile _ _ _ hq
                  intro hc
                  rw [hc] at hqf
                  simp at hqf
            · have hd0 : (xs.dropWhile (fun y => y.2 == x.2)).length ≤
                  xs.length :=
                (List.dropWhile_suffix
                  (fun y : ℕ × Bool => y.2 == x.2)).sublist.length_le
              have hd : (xs.dropWhile (fun y => y.2 == x.2)).length ≤ n := by
                have hxs : xs.length ≤ n := Nat.le_of_succ_le_succ hl
                omega
              obtain ⟨b, hne, hconst, pre, post, heq, hpre, hpost⟩ :=
                ih (xs.dropWhile (fun y => y.2 == x.2)) hd g hg1
              refine ⟨b, hne, hconst,
                (x :: xs.takeWhile (fun y => y.2 == x.2)) ++ pre, post,
                ?_, ?_, hpost⟩
              · calc x :: xs
                    = (x :: xs.takeWhile (fun y => y.2 == x.2)) ++
                      xs.dropWhile (fun y => y.2 == x.2) := by
                      simp [List.takeWhile_append_dropWhile]
                  _ = (x :: xs.takeWhile (fun y => y.2 == x.2)) ++
                      (pre ++ g ++ post) := by rw [heq]
                  _ = ((x :: xs.takeWhile (fun y => y.2 == x.2)) ++ pre) ++
                      g ++ post := by simp [List.append_assoc]
              · intro q hq
                cases hpre0 : pre with
                | nil =>
                    subst hpre0
                    rw [List.append_nil] at hq
                    have hqmem := List.mem_of_mem_getLast? hq
                    have hqflag : q.2 = x.2 := by
                      rcases List.mem_cons.mp hqmem with h1 | h1
                      · rw [h1]
                      · have hp2 := List.mem_takeWhile_imp h1
                        exact beq_iff_eq.mp hp2
                    cases g with
                    | nil => exact absurd rfl hne
                    | cons gh gt =>
                        have hhead : (xs.dropWhile
                            (fun y => y.2 == x.2)).head? = some gh := by
                          rw [heq]
                          rfl
                        have hghp := head?_dropWhile _ _ _ hhead
                        have hghb : gh.2 = b :=
                          hconst gh (List.mem_cons_self gh gt)
                        intro hc
                        rw [hqflag] at hc
                        rw [hc, ← hghb] at hghp
                        simp at hghp
                | cons p0 pre1 =>
                    have hprene : pre ≠ [] := by rw [hpre0]; simp
                    rw [List.getLast?_append_of_ne_nil _ hprene] at hq
                    exact hpre q hq
  intro g hg
  exact main l.length l (le_refl _) g hg

/-- Completeness of the segmentation: every maximal constant-flag run
is one of the produced groups. -/
theorem splitRuns_complete (l run : List (ℕ × Bool)) (b : Bool)
    (h : IsMaxRun l run b) : run ∈ splitRuns l := by
  have main : ∀ (n : ℕ) (l run : List (ℕ × Bool)) (b : Bool),
      l.length ≤ n → IsMaxRun l run b → run ∈ splitRuns l := by
    intro n
    induction n with
    | zero =>
        intro l run b hl hrun
        obtain ⟨hne, _, pre, post, heq, _, _⟩ := hrun
        have hnil : l = [] :=
          List.eq_nil_of_length_eq_zero (Nat.le_zero.mp hl)
        rw [hnil] at heq
        have hrnil : run = [] := by
          rcases List.append_eq_nil.mp heq.symm with ⟨h1, _⟩
          rcases List.append_eq_nil.mp h1 with ⟨_, h2⟩
          exact h2
        exact absurd hrnil hne
    | succ n ih =>
        intro l run b hl hrun
        obtain ⟨hne, hconst, pre, post, heq, hpre, hpost⟩ := hrun
        cases hpre0 : pre with
        | nil =>
            rw [hpre0] at heq
            cases hrun0 : run with
            | nil => exact absurd hrun0 hne
            | cons rh rt =>
                rw [hrun0] at heq
                have heq2 : l = rh :: (rt ++ post) := by
                  rw [heq]; simp
                rw [heq2]
                rw [splitRuns_cons]
                have hrhb : rh.2 = b := by
                  refine hconst rh ?_
                  rw [hrun0]; exact List.mem_cons_self rh rt
                have htw : (rt ++ post).takeWhile
                    (fun y => y.2 == rh.2) = rt := by
                  refine takeWhile_append_all _ rt post ?_ ?_
                  · intro y hy
                    have hyb : y.2 = b := by
                      refine hconst y ?_
                      rw [hrun0]; exact List.mem_cons_of_mem rh hy
                    rw [hyb, hrhb]
                    exact beq_self_eq_true b
                  · intro q hq
                    have hqb : q.2 ≠ b := hpost q hq
                    rw [hrhb]
                    exact beq_eq_false_iff_ne.mpr hqb
                rw [htw, ← hrun0]
                exact List.mem_cons_self run _
        | cons q0 pre1 =>
            rw [hpre0] at heq
            have heq2 : l = q0 :: (pre1 ++ (run ++ post)) := by
              rw [heq]; simp
            have hlen2 : pre1.length + run.length + post.length ≤ n := by
              have hc := congrArg List.length heq2
              simp only [List.length_cons, List.length_append] at hc
              omega
            rw [heq2]
            rw [splitRuns_cons]
            refine List.mem_cons_of_mem _ ?_
            by_cases hcase :
                pre1.dropWhile (fun y => y.2 == q0.2) = []
            · have hq0b : q0.2 ≠ b := by
                cases hpre1 : pre1 with
                | nil =>
                    refine hpre q0 ?_
                    rw [hpre0, hpre1]
                    rfl
                | cons a as =>
                    have hall := List.dropWhile_eq_nil_iff.mp hcase
                    have hpre1ne : pre1 ≠ [] := by rw [hpre1]; simp
                    cases hgl : pre1.getLast? with
                    | none =>
                        rw [List.getLast?_eq_none_iff] at hgl
                        exact absurd hgl hpre1ne
                    | some lastp =>
                        have hq : (q0 :: pre1).getLast? = some lastp := by
                          rw [getLast?_cons_of_ne_nil q0 pre1 hpre1ne]
                          exact hgl
                        have h1 : lastp.2 ≠ b := by
                          refine hpre lastp ?_
                          rw [hpre0]; exact hq
                        have h2 := hall lastp (List.mem_of_mem_getLast? hgl)
                        have h3 : lastp.2 = q0.2 := beq_iff_eq.mp h2
                        rw [← h3]
                        exact h1
              have hdw1 : (pre1 ++ (run ++ post)).dropWhile
                  (fun y => y.2 == q0.2) =
                  (run ++ post).dropWhile (fun y => y.2 == q0.2) :=
                dropWhile_append_eq_nil _ _ _ hcase
              have hdw2 : (run ++ post).dropWhile
                  (fun y => y.2 == q0.2) = run ++ post := by
                cases hrun0 : run with
                | nil => exact absurd hrun0 hne
                | cons rh rt =>
                    have hrhb : rh.2 = b := by
                      refine hconst rh ?_
                      rw [hrun0]; exact List.mem_cons_self rh rt
                    have hrh : (rh.2 == q0.2) = false := by
                      rw [hrhb]
                      exact beq_eq_false_iff_ne.mpr
                        (fun hc => hq0b hc.symm)
                    rw [List.cons_append]
                    rw [List.dropWhile_cons_of_neg (by simp [hrh])]
              rw [hdw1, hdw2]
              refine ih (run ++ post) run b (by
                rw [List.length_append]; omega) ?_
              refine ⟨hne, hconst, [], post, by simp, ?_, hpost⟩
              intro q hq
              exact absurd hq (by simp)
            · have hdw1 : (pre1 ++ (run ++ post)).dropWhile
                  (fun y => y.2 == q0.2) =
                  pre1.dropWhile (fun y => y.2 == q0.2) ++ (run ++ post) :=
                dropWhile_append_ne_nil _ _ _ hcase
              rw [hdw1]
              have hdlen : (pre1.dropWhile
                  (fun y => y.2 == q0.2)).length ≤ pre1.length :=
                (List.dropWhile_suffix
                  (fun y : ℕ × Bool => y.2 == q0.2)).sublist.length_le
              refine ih (pre1.dropWhile (fun y => y.2 == q0.2) ++
                (run ++ post)) run b (by
                  rw [List.length_append, List.length_append]; omega) ?_
              refine ⟨hne, hconst,
                pre1.dropWhile (fun y => y.2 == q0.2), post,
                by simp [List.append_assoc], ?_, hpost⟩
              intro q hq
              have hsuf : pre1.dropWhile (fun y => y.2 == q0.2) <:+ pre1 :=
                List.dropWhile_suffix _
              obtain ⟨t, ht⟩ := hsuf
              have hpre1ne : pre1 ≠ [] := by
                intro hc
                rw [hc] at hcase
                exact hcase rfl
              have hql : pre1.getLast? = some q := by
                rw [← ht]
                rw [List.getLast?_append_of_ne_nil t hcase]
                exact hq
              refine hpre q ?_
              rw [hpre0]
              rw [getLast?_cons_of_ne_nil q0 pre1 hpre1ne]
              exact hql
  exact main l.length l run b (le_refl _) h

/-- A uniformly-false group has candidate-column mean 0. -/
theorem flagMean_all_false (g : List (ℕ × Bool))
    (h : ∀ p ∈ g, p.2 = false) : flagMean g = 0 := by
  unfold flagMean
  have hz : (g.map (fun p => if p.2 then (1 : ℚ) else 0)).sum = 0 := by
    refine List.sum_eq_zero ?_
    intro x hx
    obtain ⟨p, hp, rfl⟩ := List.mem_map.mp hx
    rw [h p hp]
    rfl
  rw [hz]
  exact zero_div _

/-- A non-empty uniformly-true group has candidate-column mean 1. -/
theorem flagMean_all_true (g : List (ℕ × Bool)) (hne : g ≠ [])
    (h : ∀ p ∈ g, p.2 = true) : flagMean g = 1 := by
  unfold flagMean
  have hrep : g.map (fun p => if p.2 then (1 : ℚ) else 0) =
      List.replicate g.length 1 := by
    rw [List.eq_replicate_iff]
    refine ⟨by simp, ?_⟩
    intro x hx
    obtain ⟨p, hp, rfl⟩ := List.mem_map.mp hx
    rw [h p hp]
    rfl
  rw [hrep, List.sum_replicate, nsmul_eq_mul, mul_one]
  refine div_self ?_
  have hpos : 0 < g.length := List.length_pos.mpr hne
  exact_mod_cast Nat.pos_iff_ne_zero.mp hpos

/-- Membership in the kept-run output. -/
theorem mem_keepRuns (minLen : ℕ) (gs : List (List (ℕ × Bool)))
    (r : List ℕ) :
    r ∈ keepRuns minLen gs ↔ ∃ g ∈ gs, flagMean g = 0 ∧
      minLen ≤ g.length ∧ r = g.map (fun p => p.1) := by
  unfold keepRuns
  constructor
  · intro hr
    obtain ⟨g, hgf, hmap⟩ := List.mem_map.mp hr
    obtain ⟨hgs, hcond⟩ := List.mem_filter.mp hgf
    rw [Bool.and_eq_true, decide_eq_true_eq, decide_eq_true_eq] at hcond
    exact ⟨g, hgs, hcond.1, hcond.2, hmap.symm⟩
  · intro hr
    obtain ⟨g, hgs, hm, hlen, hmap⟩ := hr
    refine List.mem_map.mpr ⟨g, ?_, hmap.symm⟩
    refine List.mem_filter.mpr ⟨hgs, ?_⟩
    rw [Bool.and_eq_true, decide_eq_true_eq, decide_eq_true_eq]
    exact ⟨hm, hlen⟩

/-- The kept runs of a segmented flagged list are exactly the maximal
uniformly-false runs of sufficient length. -/
theorem keep_splitRuns_char (l : List (ℕ × Bool)) (minLen : ℕ)
    (r : List ℕ) :
    r ∈ keepRuns minLen (splitRuns l) ↔
      ∃ run, IsMaxRun l run false ∧ minLen ≤ run.length ∧
        r = run.map (fun p => p.1) := by
  rw [mem_keepRuns]
  constructor
  · intro hr
    obtain ⟨g, hgs, hm, hlen, hmap⟩ := hr
    obtain ⟨b, hmax⟩ := splitRuns_sound l g hgs
    obtain ⟨hne, hconst, hdec⟩ := hmax
    cases hb : b with
    | false =>
        rw [hb] at hconst hdec
        exact ⟨g, ⟨hne, hconst, hdec⟩, hlen, hmap⟩
    | true =>
        rw [hb] at hconst
        have h1 : flagMean g = 1 := flagMean_all_true g hne hconst
        rw [hm] at h1
        exact absurd h1.symm one_ne_zero
  · intro hr
    obtain ⟨run, hmax, hlen, hmap⟩ := hr
    have hmem := splitRuns_complete l run false hmax
    exact ⟨run, hmem, flagMean_all_false run hmax.2.1, hlen, hmap⟩

/-- Segmenting a non-empty constant-flag list yields that single
run. -/
theorem splitRuns_const (l : List (ℕ × Bool)) (b : Bool) (hne : l ≠ [])
    (h : ∀ p ∈ l, p.2 = b) : splitRuns l = [l] := by
  cases l with
  | nil => exact absurd rfl hne
  | cons x xs =>
      rw [splitRuns_cons]
      have hx : x.2 = b := h x (List.mem_cons_self x xs)
      have htw : xs.takeWhile (fun y => y.2 == x.2) = xs := by
        rw [List.takeWhile_eq_self_iff]
        intro y hy
        rw [h y (List.mem_cons_of_mem x hy), hx]
        exact beq_self_eq_true b
      have hdw : xs.dropWhile (fun y => y.2 == x.2) = [] := by
        rw [List.dropWhile_eq_nil_iff]
        intro y hy
        rw [h y (List.mem_cons_of_mem x hy), hx]
        exact beq_self_eq_true b
      rw [htw, hdw]
      rfl

/-- Segmentation peels off a leading non-empty constant-flag block when
the rest starts with the other flag. -/
theorem splitRuns_append_block (A L : List (ℕ × Bool)) (b : Bool)
    (hAne : A ≠ []) (hA : ∀ p ∈ A, p.2 = b)
    (hL : ∀ q, L.head? = some q → q.2 ≠ b) :
    splitRuns (A ++ L) = A :: splitRuns L := by
  cases A with
  | nil => exact absurd rfl hAne
  | cons x A1 =>
      rw [List.cons_append, splitRuns_cons]
      have hx : x.2 = b := hA x (List.mem_cons_self x A1)
      have hLhead : ∀ q, L.head? = some q →
          ((fun y : ℕ × Bool => y.2 == x.2) q) = false := by
        intro q hq
        rw [hx]
        exact beq_eq_false_iff_ne.mpr (hL q hq)
      have htw : (A1 ++ L).takeWhile (fun y => y.2 == x.2) = A1 := by
        refine takeWhile_append_all _ A1 L ?_ hLhead
        intro y hy
        rw [hA y (List.mem_cons_of_mem x hy), hx]
        exact beq_self_eq_true b
      have hdwA : A1.dropWhile (fun y => y.2 == x.2) = [] := by
        rw [List.dropWhile_eq_nil_iff]
        intro y hy
        rw [hA y (List.mem_cons_of_mem x hy), hx]
        exact beq_self_eq_true b
      have hdw : (A1 ++ L).dropWhile (fun y => y.2 == x.2) = L := by
        rw [dropWhile_append_eq_nil _ _ _ hdwA]
        cases hLc : L with
        | nil => rfl
        | cons q L1 =>
            have hq := hLhead q (by rw [hLc]; rfl)
            rw [List.dropWhile_cons_of_neg (by simp [hq])]
      rw [htw, hdw]

/-- Evaluation of `keepRuns` over one explicit group list, driven by
proved flag-mean values. -/
theorem keepRuns_singleton_kept (minLen : ℕ) (g : List (ℕ × Bool))
    (hm : flagMean g = 0) (hl : minLen ≤ g.length) :
    keepRuns minLen [g] = [g.map (fun p => p.1)] := by
  unfold keepRuns
  have hc : (decide (flagMean g = 0) &&
      decide (minLen ≤ g.length)) = true := by
    rw [decide_eq_true hm, decide_eq_true hl]
    rfl
  simp [List.filter, hc]

/-- Constant 5-sample airborne series used in the C6 counterexample:
all deltas are NaN, so both candidate flags are uniformly 0. -/
def rowsConstFive : List (ℕ × ℚ × Bool) :=
  (List.range 5).map (fun t => (t, (0 : ℚ), false))

/-- The flagged-row lists of the constant series: flags uniformly
false. -/
theorem rowsConstFive_flagged :
    downFlagged rowsConstFive =
      [(0, false), (1, false), (2, false), (3, false), (4, false)] ∧
    upFlagged rowsConstFive =
      [(0, false), (1, false), (2, false), (3, false), (4, false)] := by
  constructor <;> decide

/-- Claim C6, counterexample: on a constant 5-sample airborne series
with `min_length = 1`, the code's descending output is the whole series
(one maximal run with candidate flag uniformly *false*, mean 0), while
the output the claim describes — runs with the candidate flag uniformly
*true* (mean 1) — is empty; the two disagree, and likewise for the
ascending output. -/
theorem C6_profile_flag_counterexample :
    (profilesEmbed rowsConstFive 1).2 = [[0, 1, 2, 3, 4]] ∧
    (profilesClaimed rowsConstFive 1).2 = [] ∧
    (profilesEmbed rowsConstFive 1).2 ≠
      (profilesClaimed rowsConstFive 1).2 ∧
    (profilesEmbed rowsConstFive 1).1 = [[0, 1, 2, 3, 4]] ∧
    (profilesClaimed rowsConstFive 1).1 = [] := by
  obtain ⟨hdf, huf⟩ := rowsConstFive_flagged
  have hallf : ∀ p ∈ ([(0, false), (1, false), (2, false), (3, false),
      (4, false)] : List (ℕ × Bool)), p.2 = false := by decide
  have hne : ([(0, false), (1, false), (2, false), (3, false),
      (4, false)] : List (ℕ × Bool)) ≠ [] := by decide
  have hsplit := splitRuns_const _ false hne hallf
  have hmean := flagMean_all_false _ hallf
  have hkeep := keepRuns_singleton_kept 1 _ hmean (by decide)
  have hclaim : keepRunsClaimed 1 [([(0, false), (1, false), (2, false),
      (3, false), (4, false)] : List (ℕ × Bool))] = [] := by
    unfold keepRunsClaimed
    have h1 : ¬ flagMean ([(0, false), (1, false), (2, false),
        (3, false), (4, false)] : List (ℕ × Bool)) = 1 := by
      rw [hmean]
      exact zero_ne_one
    have hd1 : decide (flagMean ([(0, false), (1, false), (2, false),
        (3, false), (4, false)] : List (ℕ × Bool)) = 1) = false :=
      decide_eq_false h1
    simp [List.filter, hd1]
  have hdown : (profilesEmbed rowsConstFive 1).2 = [[0, 1, 2, 3, 4]] := by
    show keepRuns 1 (splitRuns (downFlagged rowsConstFive)) =
      [[0, 1, 2, 3, 4]]
    rw [hdf, hsplit, hkeep]
    rfl
  have hup : (profilesEmbed rowsConstFive 1).1 = [[0, 1, 2, 3, 4]] := by
    show keepRuns 1 (splitRuns (upFlagged rowsConstFive)) =
      [[0, 1, 2, 3, 4]]
    rw [huf, hsplit, hkeep]
    rfl
  have hdownc : (profilesClaimed rowsConstFive 1).2 = [] := by
    show keepRunsClaimed 1 (splitRuns (downFlagged rowsConstFive)) = []
    rw [hdf, hsplit, hclaim]
  have hupc : (profilesClaimed rowsConstFive 1).1 = [] := by
    show keepRunsClaimed 1 (splitRuns (upFlagged rowsConstFive)) = []
    rw [huf, hsplit, hclaim]
  refine ⟨hdown, hdownc, ?_, hup, hupc⟩
  rw [hdown, hdownc]
  simp

/-- Claim C6 amended: the descending output consists of exactly the
maximal constant-value runs, of length ≥ `min_length`, on which the
descending-candidate flag (first difference of the centered rolling
mean of static pressure < +threshold) is uniformly *false* (mean == 0
— i.e. the delta is ≥ +threshold or undefined throughout), and the
ascending output of exactly those runs on which the
ascending-candidate flag (that difference > −threshold) is uniformly
*false* (the delta is ≤ −threshold or undefined throughout). -/
theorem C6_profile_runs_amended (rows : List (ℕ × ℚ × Bool))
    (minLength : ℕ) (r : List ℕ) :
    (r ∈ (profilesEmbed rows minLength).2 ↔
      ∃ run, IsMaxRun (downFlagged rows) run false ∧
        minLength ≤ run.length ∧ r = run.map (fun p => p.1)) ∧
    (r ∈ (profilesEmbed rows minLength).1 ↔
      ∃ run, IsMaxRun (upFlagged rows) run false ∧
        minLength ≤ run.length ∧ r = run.map (fun p => p.1)) :=
  ⟨keep_splitRuns_char (downFlagged rows) minLength r,
   keep_splitRuns_char (upFlagged rows) minLength r⟩

end Faam

namespace Faam

/-! ### C7: a steep monotone descent in pressure is pure ascent -/

/-- Element lookup with default in a mapped range. -/
theorem getD_map_range {α : Type} (f : ℕ → α) (n j : ℕ) (d : α) :
    ((List.range n).map f).getD j d = if j < n then f j else d := by
  rw [List.getD_eq_getElem?_getD, List.getElem?_map]
  by_cases h : j < n
  · rw [List.getElem?_range h]
    simp [h]
  · have hnone : (List.range n)[j]? = none := by
      rw [List.getElem?_eq_none_iff]
      simpa using not_lt.mp h
    rw [hnone]
    simp [h]

/-- Telescoping: shifting a length-`w` window sum one step to the right
exchanges the entering and the leaving sample. -/
theorem windowSum_shift (xs : List ℚ) : ∀ (w a : ℕ),
    windowSum xs (a + 1) w - windowSum xs a w =
      xs.getD (a + w) 0 - xs.getD a 0 := by
  intro w
  induction w with
  | zero =>
      intro a
      simp [windowSum]
  | succ w ih =>
      intro a
      have h1 := ih (a + 1)
      simp only [windowSum] at h1 ⊢
      have harith : a + 1 + w = a + (w + 1) := by ring
      rw [harith] at h1
      linarith

/-- Accumulated descent: per-sample drops steeper than 3/20 add up. -/
theorem slope_sum (p : ℕ → ℚ)
    (hs : ∀ i, i + 1 ≤ 199 → p (i + 1) - p i < -(3 / 20)) :
    ∀ (k a : ℕ), 1 ≤ k → a + k ≤ 199 →
      p (a + k) - p a < -((k : ℚ) * (3 / 20)) := by
  intro k
  induction k with
  | zero => intro a h0; exact absurd h0 (by omega)
  | succ k ih =>
      intro a _ hbound
      cases Nat.eq_zero_or_pos k with
      | inl hk0 =>
          subst hk0
          have := hs a (by omega)
          push_cast
          linarith
      | inr hkpos =>
          have h1 := ih a hkpos (by omega)
          have h2 := hs (a + k) (by omega)
          have harith : a + (k + 1) = (a + k) + 1 := by ring
          rw [harith]
          push_cast
          push_cast at h1
          linarith

/-- The centered rolling mean of window 60 over a 200-sample series:
defined exactly on positions 30..170, with window `[j-30, j+29]`. -/
theorem rollMean60_getD (xs : List ℚ) (hlen : xs.length = 200) (j : ℕ) :
    (rollMeanC 60 xs).getD j none =
      if 30 ≤ j ∧ j ≤ 170 then
        some (windowSum xs (j - 30) 60 / 60)
      else none := by
  unfold rollMeanC
  rw [getD_map_range]
  rw [hlen]
  by_cases h : 30 ≤ j ∧ j ≤ 170
  · have hj : j < 200 := by omega
    rw [if_pos hj]
    have hcond : 60 ≤ j + (60 - 1) / 2 + 1 ∧ j + (60 - 1) / 2 < 200 := by
      norm_num
      omega
    rw [if_pos hcond, if_pos h]
    have hlo : j + (60 - 1) / 2 + 1 - 60 = j - 30 := by
      norm_num
      omega
    rw [hlo]
    norm_num
  · by_cases hj : j < 200
    · rw [if_pos hj]
      have hcond : ¬ (60 ≤ j + (60 - 1) / 2 + 1 ∧
          j + (60 - 1) / 2 < 200) := by
        norm_num
        omega
      rw [if_neg hcond, if_neg h]
    · rw [if_neg hj, if_neg h]

end Faam

namespace Faam

/-- Length of the centered rolling mean. -/
theorem rollMeanC_length (w : ℕ) (xs : List ℚ) :
    (rollMeanC w xs).length = xs.length := by
  simp [rollMeanC]

/-- In the steep-descent setting, the rolling-mean delta at a defined
position `31 ≤ i ≤ 170` is strictly below `-3/20`. -/
theorem diff60_defined (p : ℕ → ℚ)
    (hs : ∀ i, i + 1 ≤ 199 → p (i + 1) - p i < -(3 / 20))
    (j : ℕ) (hj : 30 ≤ j) (hj2 : j + 1 ≤ 170) :
    ∃ d : ℚ, ((rollMeanC 60 ((List.range 200).map p)).getD j none).bind
        (fun a => ((rollMeanC 60 ((List.range 200).map p)).getD (j + 1)
          none).map (fun b => b - a)) = some d ∧ d < -(3 / 20) := by
  have hxslen : ((List.range 200).map p).length = 200 := by simp
  rw [rollMean60_getD _ hxslen j, rollMean60_getD _ hxslen (j + 1)]
  rw [if_pos (by omega), if_pos (by omega)]
  refine ⟨windowSum ((List.range 200).map p) (j + 1 - 30) 60 / 60 -
    windowSum ((List.range 200).map p) (j - 30) 60 / 60, rfl, ?_⟩
  rw [div_sub_div_same]
  have hshift : j + 1 - 30 = (j - 30) + 1 := by omega
  rw [hshift, windowSum_shift]
  rw [getD_map_range, getD_map_range]
  rw [if_pos (by omega : j - 30 + 60 < 200), if_pos (by omega : j - 30 < 200)]
  have hsum := slope_sum p hs 60 (j - 30) (by omega) (by omega)
  have hlt : p (j - 30 + 60) - p (j - 30) < -9 := by
    push_cast at hsum
    linarith
  have h60 : (0 : ℚ) < ((60 : ℕ) : ℚ) := by norm_num
  have hstep : (p (j - 30 + 60) - p (j - 30)) / ((60 : ℕ) : ℚ) <
      (-9 : ℚ) / ((60 : ℕ) : ℚ) := by
    exact div_lt_div_of_pos_right hlt h60
  have hfin : ((-9 : ℚ)) / ((60 : ℕ) : ℚ) = -(3 / 20) := by
    push_cast
    norm_num
  rw [hfin] at hstep
  exact hstep

end Faam

namespace Faam

/-- Outside positions 31..170 the rolling-mean delta is NaN. -/
theorem diff60_undefined (p : ℕ → ℚ) (j : ℕ)
    (hj : ¬ (30 ≤ j ∧ j + 1 ≤ 170)) :
    ((rollMeanC 60 ((List.range 200).map p)).getD j none).bind
      (fun a => ((rollMeanC 60 ((List.range 200).map p)).getD (j + 1)
        none).map (fun b => b - a)) = none := by
  have hxslen : ((List.range 200).map p).length = 200 := by simp
  rw [rollMean60_getD _ hxslen j, rollMean60_getD _ hxslen (j + 1)]
  by_cases h1 : 30 ≤ j ∧ j ≤ 170
  · have h2 : ¬ (30 ≤ j + 1 ∧ j + 1 ≤ 170) := by omega
    rw [if_pos h1, if_neg h2]
    rfl
  · rw [if_neg h1]
    rfl

/-- A map over a contiguous index block is a constant block when the
function is constant there. -/
theorem map_range'_const (g : ℕ → Bool) (c : Bool) :
    ∀ (n a : ℕ), (∀ i, a ≤ i → i < a + n → g i = c) →
      (List.range' a n).map g = List.replicate n c := by
  intro n
  induction n with
  | zero => intro a _; rfl
  | succ n ih =>
      intro a h
      rw [List.range'_succ]
      simp only [List.map_cons]
      rw [h a (le_refl a) (by omega)]
      rw [List.replicate_succ]
      congr 1
      refine ih (a + 1) ?_
      intro i hi1 hi2
      exact h i (by omega) (by omega)

/-- A map over `range n` is constant when the function is. -/
theorem map_range_const (g : ℕ → Bool) (c : Bool) (n : ℕ)
    (h : ∀ i, i < n → g i = c) :
    (List.range n).map g = List.replicate n c := by
  rw [List.range_eq_range']
  exact map_range'_const g c n 0 (fun i h1 h2 => h i (by omega))

/-- A map over `range n` made of three constant blocks. -/
theorem map_range_three (g : ℕ → Bool) (c1 c2 c3 : Bool)
    (n n1 n2 n3 : ℕ) (hn : n = n1 + n2 + n3)
    (h1 : ∀ i, i < n1 → g i = c1)
    (h2 : ∀ i, n1 ≤ i → i < n1 + n2 → g i = c2)
    (h3 : ∀ i, n1 + n2 ≤ i → i < n1 + n2 + n3 → g i = c3) :
    (List.range n).map g =
      List.replicate n1 c1 ++
        (List.replicate n2 c2 ++ List.replicate n3 c3) := by
  subst hn
  rw [List.range_eq_range']
  have e2 := List.range'_append n1 n2 n3 1
  have e2' : List.range' n1 n2 ++ List.range' (n1 + n2) n3 =
      List.range' n1 (n2 + n3) := by
    have ha : n1 + 1 * n2 = n1 + n2 := by ring
    have hb : n3 + n2 = n2 + n3 := by ring
    rw [ha, hb] at e2
    exact e2
  have e1 := List.range'_append 0 n1 (n2 + n3) 1
  have e1' : List.range' 0 n1 ++ List.range' n1 (n2 + n3) =
      List.range' 0 (n1 + n2 + n3) := by
    have ha : 0 + 1 * n1 = n1 := by ring
    have hb : n2 + n3 + n1 = n1 + n2 + n3 := by ring
    rw [ha, hb] at e1
    exact e1
  rw [← e1', ← e2']
  rw [List.map_append, List.map_append]
  congr 1
  · exact map_range'_const g c1 n1 0 (fun i ha hb => h1 i (by omega))
  congr 1
  · exact map_range'_const g c2 n2 n1 (fun i ha hb => h2 i ha hb)
  · exact map_range'_const g c3 n3 (n1 + n2)
      (fun i ha hb => h3 i ha (by omega))

/-- Under the steep-descent hypothesis, the descending-candidate flag
column is: 31 leading NaN-false entries, 140 true entries, 29 trailing
NaN-false entries. -/
theorem flags_down_pattern (p : ℕ → ℚ)
    (hs : ∀ i, i + 1 ≤ 199 → p (i + 1) - p i < -(3 / 20)) :
    (diffO (rollMeanC 60 ((List.range 200).map p))).map
        (flagLt profThresh) =
      List.replicate 31 false ++
        (List.replicate 140 true ++ List.replicate 29 false) := by
  have hdlen : (rollMeanC 60 ((List.range 200).map p)).length = 200 := by
    rw [rollMeanC_length]
    simp
  unfold diffO
  rw [hdlen]
  rw [List.map_map]
  refine map_range_three _ false true false 200 31 140 29 (by norm_num)
    ?_ ?_ ?_
  · intro i h31
    simp only [Function.comp]
    cases i with
    | zero => rfl
    | succ j =>
        rw [if_neg (by omega : ¬ (j + 1 = 0))]
        simp only [Nat.add_sub_cancel]
        rw [diff60_undefined p j (by omega)]
        rfl
  · intro i h31 h171
    simp only [Function.comp]
    cases i with
    | zero => exact absurd h31 (by omega)
    | succ j =>
        rw [if_neg (by omega : ¬ (j + 1 = 0))]
        simp only [Nat.add_sub_cancel]
        obtain ⟨d, hd, hdlt⟩ := diff60_defined p hs j (by omega) (by omega)
        rw [hd]
        show decide (d < profThresh) = true
        refine decide_eq_true ?_
        unfold profThresh
        linarith
  · intro i h171 h200
    simp only [Function.comp]
    cases i with
    | zero => exact absurd h171 (by omega)
    | succ j =>
        rw [if_neg (by omega : ¬ (j + 1 = 0))]
        simp only [Nat.add_sub_cancel]
        rw [diff60_undefined p j (by omega)]
        rfl

/-- Under the steep-descent hypothesis, the ascending-candidate flag
column is uniformly false. -/
theorem flags_up_pattern (p : ℕ → ℚ)
    (hs : ∀ i, i + 1 ≤ 199 → p (i + 1) - p i < -(3 / 20)) :
    (diffO (rollMeanC 60 ((List.range 200).map p))).map
        (flagGt (-profThresh)) =
      List.replicate 200 false := by
  have hdlen : (rollMeanC 60 ((List.range 200).map p)).length = 200 := by
    rw [rollMeanC_length]
    simp
  unfold diffO
  rw [hdlen]
  rw [List.map_map]
  refine map_range_const _ false 200 ?_
  intro i h200
  simp only [Function.comp]
  cases i with
  | zero => rfl
  | succ j =>
      rw [if_neg (by omega : ¬ (j + 1 = 0))]
      simp only [Nat.add_sub_cancel]
      by_cases hdef : 30 ≤ j ∧ j + 1 ≤ 170
      · obtain ⟨d, hd, hdlt⟩ := diff60_defined p hs j hdef.1 hdef.2
        rw [hd]
        show decide (-profThresh < d) = false
        refine decide_eq_false ?_
        unfold profThresh
        intro hc
        linarith
      · rw [diff60_undefined p j hdef]
        rfl

end Faam

namespace Faam

set_option maxRecDepth 100000 in
/-- The 200-sample index range split at the NaN boundaries of the
window-60 rolling delta. -/
theorem range200_decomp : List.range 200 =
    List.range' 0 31 ++ (List.range' 31 140 ++ List.range' 171 29) := by
  decide

/-- All rows zipped against a constant replicate carry that flag. -/
theorem zip_replicate_flag (l : List ℕ) (n : ℕ) (c : Bool) :
    ∀ q ∈ l.zip (List.replicate n c), q.2 = c := by
  intro q hq
  obtain ⟨a, b⟩ := q
  exact List.eq_of_mem_replicate (List.of_mem_zip hq).2

/-- Leading all-false block of the descending flag rows. -/
def zBlockA : List (ℕ × Bool) :=
  (List.range' 0 31).zip (List.replicate 31 false)

/-- Middle all-true block of the descending flag rows. -/
def zBlockB : List (ℕ × Bool) :=
  (List.range' 31 140).zip (List.replicate 140 true)

/-- Trailing all-false block of the descending flag rows. -/
def zBlockC : List (ℕ × Bool) :=
  (List.range' 171 29).zip (List.replicate 29 false)

/-- The descending flag rows split along the flag pattern. -/
theorem zip200_decomp :
    (List.range 200).zip (List.replicate 31 false ++
      (List.replicate 140 true ++ List.replicate 29 false)) =
    zBlockA ++ (zBlockB ++ zBlockC) := by
  unfold zBlockA zBlockB zBlockC
  rw [range200_decomp]
  rw [List.zip_append
    (by rw [List.length_range', List.length_replicate])]
  rw [List.zip_append
    (by rw [List.length_range', List.length_replicate])]

/-- A three-group segmentation in which every group is rejected
produces no kept runs. -/
theorem keepRuns_three_skip (minLen : ℕ) (g1 g2 g3 : List (ℕ × Bool))
    (h1 : (decide (flagMean g1 = 0) && decide (minLen ≤ g1.length)) = false)
    (h2 : (decide (flagMean g2 = 0) && decide (minLen ≤ g2.length)) = false)
    (h3 : (decide (flagMean g3 = 0) && decide (minLen ≤ g3.length)) =
      false) :
    keepRuns minLen [g1, g2, g3] = [] := by
  unfold keepRuns
  rw [List.filter_cons_of_neg (by simp [h1])]
  rw [List.filter_cons_of_neg (by simp [h2])]
  rw [List.filter_cons_of_neg (by simp [h3])]
  rfl

/-- Claim C7, confirmed: every 1 Hz airborne 200-sample series whose
static pressure drops by more than the threshold 3/20 every sample is
classified by the profile detector (with `min_length = 60`) as one
single ascending leg covering the whole series, with no descending
segments. -/
theorem C7_steep_descent_is_ascending (p : ℕ → ℚ)
    (hs : ∀ i, i + 1 ≤ 199 → p (i + 1) - p i < -(3 / 20)) :
    profilesEmbed ((List.range 200).map (fun t => (t, p t, false))) 60 =
      ([List.range 200], []) := by
  have hair : airRows ((List.range 200).map (fun t => (t, p t, false))) =
      (List.range 200).map (fun t => (t, p t, false)) := by
    unfold airRows
    rw [List.filter_eq_self]
    intro r hr
    obtain ⟨t, _, rfl⟩ := List.mem_map.mp hr
    simp
  have hts : (((List.range 200).map (fun t => (t, p t, false))).map
      (fun r => r.1)) = List.range 200 := by
    rw [List.map_map]
    exact List.map_id _
  have hps : (((List.range 200).map (fun t => (t, p t, false))).map
      (fun r => r.2.1)) = (List.range 200).map p := by
    rw [List.map_map]
    rfl
  have hdownf : downFlagged ((List.range 200).map
      (fun t => (t, p t, false))) =
      (List.range 200).zip (List.replicate 31 false ++
        (List.replicate 140 true ++ List.replicate 29 false)) := by
    unfold downFlagged profRolling
    rw [hair, hts, hps]
    rw [flags_down_pattern p hs]
  have hupf : upFlagged ((List.range 200).map
      (fun t => (t, p t, false))) =
      (List.range 200).zip (List.replicate 200 false) := by
    unfold upFlagged profRolling
    rw [hair, hts, hps]
    rw [flags_up_pattern p hs]
  -- ascending output: one kept run covering everything
  have hZUall : ∀ q ∈ (List.range 200).zip (List.replicate 200 false),
      q.2 = false := zip_replicate_flag _ _ _
  have hZUlen : ((List.range 200).zip
      (List.replicate 200 false)).length = 200 := by
    rw [List.length_zip, List.length_range, List.length_replicate]
    exact Nat.min_self 200
  have hZUne : (List.range 200).zip (List.replicate 200 false) ≠ [] := by
    intro hc
    rw [hc] at hZUlen
    simp at hZUlen
  have hupOut : keepRuns 60 (splitRuns ((List.range 200).zip
      (List.replicate 200 false))) = [List.range 200] := by
    rw [splitRuns_const _ false hZUne hZUall]
    rw [keepRuns_singleton_kept 60 _ (flagMean_all_false _ hZUall)
      (by rw [hZUlen]; norm_num)]
    have hmapfst : ((List.range 200).zip
        (List.replicate 200 false)).map (fun q => q.1) = List.range 200 :=
      List.map_fst_zip (List.range 200) (List.replicate 200 false)
        (by rw [List.length_range, List.length_replicate])
    rw [hmapfst]
  -- descending output: three runs, all rejected
  have hZAall : ∀ q ∈ zBlockA, q.2 = false := zip_replicate_flag _ _ _
  have hZBall : ∀ q ∈ zBlockB, q.2 = true := zip_replicate_flag _ _ _
  have hZCall : ∀ q ∈ zBlockC, q.2 = false := zip_replicate_flag _ _ _
  have hZAlen : zBlockA.length = 31 := by
    unfold zBlockA
    rw [List.length_zip, List.length_range', List.length_replicate]
    exact Nat.min_self 31
  have hZBlen : zBlockB.length = 140 := by
    unfold zBlockB
    rw [List.length_zip, List.length_range', List.length_replicate]
    exact Nat.min_self 140
  have hZClen : zBlockC.length = 29 := by
    unfold zBlockC
    rw [List.length_zip, List.length_range', List.length_replicate]
    exact Nat.min_self 29
  have hZAne : zBlockA ≠ [] := by
    intro hc
    rw [hc] at hZAlen
    simp at hZAlen
  have hZBne : zBlockB ≠ [] := by
    intro hc
    rw [hc] at hZBlen
    simp at hZBlen
  have hZCne : zBlockC ≠ [] := by
    intro hc
    rw [hc] at hZClen
    simp at hZClen
  have hLhead : ∀ q, (zBlockB ++ zBlockC).head? = some q → q.2 ≠ false := by
    intro q hq
    rw [List.head?_append_of_ne_nil _ hZBne] at hq
    have hmem : q ∈ zBlockB :=
      List.mem_of_mem_head? (Option.mem_def.mpr hq)
    rw [hZBall q hmem]
    simp
  have hChead : ∀ q, zBlockC.head? = some q → q.2 ≠ true := by
    intro q hq
    have hmem : q ∈ zBlockC :=
      List.mem_of_mem_head? (Option.mem_def.mpr hq)
    rw [hZCall q hmem]
    simp
  have hsplitD : splitRuns (zBlockA ++ (zBlockB ++ zBlockC)) =
      [zBlockA, zBlockB, zBlockC] := by
    rw [splitRuns_append_block zBlockA (zBlockB ++ zBlockC) false
      hZAne hZAall hLhead]
    rw [splitRuns_append_block zBlockB zBlockC true hZBne hZBall hChead]
    rw [splitRuns_const zBlockC false hZCne hZCall]
  have hdownOut : keepRuns 60 (splitRuns ((List.range 200).zip
      (List.replicate 31 false ++ (List.replicate 140 true ++
        List.replicate 29 false)))) = [] := by
    rw [zip200_decomp, hsplitD]
    refine keepRuns_three_skip 60 zBlockA zBlockB zBlockC ?_ ?_ ?_
    · rw [hZAlen]
      rw [decide_eq_false (by omega : ¬ (60 ≤ 31))]
      exact Bool.and_false _
    · rw [decide_eq_false ?_]
      · exact Bool.false_and _
      · rw [flagMean_all_true zBlockB hZBne hZBall]
        exact one_ne_zero
    · rw [hZClen]
      rw [decide_eq_false (by omega : ¬ (60 ≤ 29))]
      exact Bool.and_false _
  show (keepRuns 60 (splitRuns (upFlagged ((List.range 200).map
      (fun t => (t, p t, false))))),
    keepRuns 60 (splitRuns (downFlagged ((List.range 200).map
      (fun t => (t, p t, false)))))) = ([List.range 200], [])
  rw [hupf, hdownf, hupOut, hdownOut]

/-- Witness for `C7_steep_descent_is_ascending`: the linear descent
`p t = -t`, which drops by 1 > 3/20 every sample. -/
theorem C7_steep_descent_witness :
    profilesEmbed ((List.range 200).map
      (fun t => (t, -(t : ℚ), false))) 60 = ([List.range 200], []) :=
  C7_steep_descent_is_ascending (fun t => -(t : ℚ)) (by
    intro i hi
    push_cast
    ring_nf
    norm_num)

end Faam

namespace Faam

/-!
Part 4 embeds the catalog scan of `faamda/wrapper/wrapper.py`
(`FAAM._load_file` / `FAAM.add_file`) for claim C9: each file's
basename is tested against the registered patterns in registration
order; on the first match `FAAM.add_file` parses the mandatory `date`
group with `datetime.strptime(..., ':'.join-free format %Y%m%d)` —
which raises `ValueError` on an invalid calendar date — creates the
flight and accessor on demand, and appends a `FAAMFile` built from the
captured groups.  Nothing catches the `ValueError`, so it propagates
out of the scan (`Except.error`).

The `core` pattern
`^core_faam_(?P<date>[0-9]{8})_v00(?P<version>[0-9])_r(?P<revision>[0-9]+)_(?P<flightnum>[a-z][0-9]{3})_?(?P<freq>[1-9]*)h?z?.nc$`
(compiled with `re.I`; the unescaped `.` matches any character) is
implemented as a case-insensitive parser with the backtracking the
optional tail pieces need.
-/

/-- Captured groups of a filename match. -/
structure MatchG where
  date : String
  flightnum : String
  version : Option String
  revision : Option String
  freq : Option String
deriving DecidableEq, Repr

/-- Consume a literal (given lowercase), case-insensitively. -/
def stripLit : List Char → List Char → Option (List Char)
  | cs, [] => some cs
  | [], _ :: _ => none
  | c :: cs, d :: ds => if c.toLower = d then stripLit cs ds else none

/-- Consume exactly `n` characters satisfying `p`. -/
def takeCount : ℕ → (Char → Bool) → List Char →
    Option (List Char × List Char)
  | 0, _, cs => some ([], cs)
  | _ + 1, _, [] => none
  | n + 1, p, c :: cs =>
      if p c then (takeCount n p cs).map (fun s => (c :: s.1, s.2))
      else none

/-- Consume one or more characters satisfying `p` (greedy). -/
def takeWhile1 (p : Char → Bool) (cs : List Char) :
    Option (List Char × List Char) :=
  match cs.takeWhile p with
  | [] => none
  | s => some (s, cs.dropWhile p)

/-- The `[a-z]` class under `re.I`. -/
def isAlphaAZ (c : Char) : Bool :=
  decide ('a' ≤ c.toLower) && decide (c.toLower ≤ 'z')

/-- The `[1-9]` class. -/
def isDigit19 (c : Char) : Bool :=
  decide ('1' ≤ c) && decide (c ≤ '9')

/-- The continuations of an optional (greedy) literal character, in
the order a backtracking regex engine tries them. -/
def optChar (c : Char) (cs : List Char) : List (List Char) :=
  match cs with
  | d :: ds => if d.toLower = c then [ds, cs] else [cs]
  | [] => [cs]

/-- The `(freq, rest)` splits of `[1-9]*`, longest first. -/
def freqSplits (cs : List Char) : List (List Char × List Char) :=
  let w := (cs.takeWhile isDigit19).length
  (List.range (w + 1)).map (fun j => (cs.take (w - j), cs.drop (w - j)))

/-- The final `.nc$` of the pattern: one arbitrary character (the
unescaped dot), then `nc`, then end of string. -/
def endNc (cs : List Char) : Bool :=
  match cs with
  | [_, n, c] => (n.toLower = 'n' : Bool) && (c.toLower = 'c' : Bool)
  | _ => false

/-- The backtracking tail `_?([1-9]*)h?z?.nc$`, returning the captured
freq group. -/
def tailFreq (cs : List Char) : Option (List Char) :=
  (optChar '_' cs).findSome? (fun cs1 =>
    (freqSplits cs1).findSome? (fun fr =>
      (optChar 'h' fr.2).findSome? (fun cs3 =>
        (optChar 'z' cs3).findSome? (fun cs4 =>
          if endNc cs4 then some fr.1 else none))))

/-- The `core` filename pattern as a matcher. -/
def matchCore (name : String) : Option MatchG :=
  (stripLit name.toList ("core_faam_".toList)).bind (fun cs1 =>
  (takeCount 8 Char.isDigit cs1).bind (fun dt =>
  (stripLit dt.2 ("_v00".toList)).bind (fun cs3 =>
  (takeCount 1 Char.isDigit cs3).bind (fun ver =>
  (stripLit ver.2 ("_r".toList)).bind (fun cs5 =>
  (takeWhile1 Char.isDigit cs5).bind (fun rev =>
  (stripLit rev.2 ("_".toList)).bind (fun cs7 =>
  (takeCount 1 isAlphaAZ cs7).bind (fun fl1 =>
  (takeCount 3 Char.isDigit fl1.2).bind (fun fl2 =>
  (tailFreq fl2.2).map (fun freq =>
    { date := String.mk dt.1,
      flightnum := String.mk (fl1.1 ++ fl2.1),
      version := some (String.mk ver.1),
      revision := some (String.mk rev.1),
      freq := some (String.mk freq) }))))))))))

/-- Digits to a number (the effect of Python `int` on a digit
string). -/
def digitsToNat (cs : List Char) : ℕ :=
  cs.foldl (fun acc c => acc * 10 + (c.toNat - ('0').toNat)) 0

/-- Gregorian leap year, as `datetime` uses it. -/
def isLeap (y : ℕ) : Bool :=
  (decide (y % 4 = 0) && decide (¬ y % 100 = 0)) || decide (y % 400 = 0)

/-- Days in a month, as `datetime` validates them. -/
def daysInMonth (y m : ℕ) : ℕ :=
  if m = 2 then (if isLeap y then 29 else 28)
  else if m = 4 ∨ m = 6 ∨ m = 9 ∨ m = 11 then 30
  else 31

/-- Modelled from the spec: `datetime.strptime(s, %Y%m%d)` succeeds
exactly on 8-digit strings whose month and day form a valid calendar
date with year at least 1 (Python `MINYEAR`). -/
def validDate8 (s : String) : Bool :=
  let cs := s.toList
  decide (cs.length = 8) && cs.all Char.isDigit &&
  (let y := digitsToNat (cs.take 4)
   let m := digitsToNat ((cs.drop 4).take 2)
   let d := digitsToNat (cs.drop 6)
   decide (1 ≤ y) && decide (1 ≤ m) && decide (m ≤ 12) &&
     decide (1 ≤ d) && decide (d ≤ daysInMonth y m))

/-- Embedding of `wrapper.FAAMFile.__init__` on the captured groups:
missing or unparseable groups become `None`, a missing/empty freq
group becomes the `FULL_FREQ` sentinel. -/
def fileFromMatch (path : String) (g : MatchG) : FAAMFile :=
  { path := path,
    version := match g.version with
      | some s => if s = "" then PyV.vnone
          else PyV.vint (digitsToNat s.toList)
      | none => PyV.vnone,
    revision := match g.revision with
      | some s => if s = "" then PyV.vnone
          else PyV.vint (digitsToNat s.toList)
      | none => PyV.vnone,
    freqRaw := match g.freq with
      | some s => if s = "" then FULL_FREQ
          else (digitsToNat s.toList : ℤ)
      | none => FULL_FREQ }

/-- A flight: number, date string, and its per-hook accessors. -/
structure Flight where
  flightnum : String
  dateStr : String
  accessors : List (String × DataAccessor)
deriving DecidableEq, Repr

/-- The catalog: flights keyed by flight number. -/
structure Catalog where
  flights : List (String × Flight)
deriving DecidableEq, Repr

/-- Update or append in an association list (Python dict update). -/
def updateAssoc {β : Type} (k : String) (v : β) :
    List (String × β) → List (String × β)
  | [] => [(k, v)]
  | e :: rest =>
      if e.1 = k then (k, v) :: rest else e :: updateAssoc k v rest

/-- Embedding of `FAAM.add_file(hook, root, match)`: parse the date
(raising `ValueError` on an invalid one — nothing catches it), find or
create the flight and the accessor, and add the new `FAAMFile`. -/
def faamAddFile (c : Catalog) (hook : String) (name : String)
    (g : MatchG) : Except String Catalog :=
  if validDate8 g.date = true then
    let flight := match c.flights.lookup g.flightnum with
      | some fl => fl
      | none => { flightnum := g.flightnum, dateStr := g.date,
                  accessors := [] }
    let acc := match flight.accessors.lookup hook with
      | some a => a
      | none => DataAccessor.init
    let acc2 := add_file acc (fileFromMatch name g)
    let flight2 := { flight with
      accessors := updateAssoc hook acc2 flight.accessors }
    Except.ok { flights := updateAssoc g.flightnum flight2 c.flights }
  else Except.error "ValueError: unconverted or invalid date"

/-- Embedding of `FAAM._load_file`: try the registered patterns in
registration order; route the first match to `add_file`; silently
ignore a file matching no pattern. -/
def loadFileStep (registry : List (String × (String → Option MatchG)))
    (c : Catalog) (name : String) : Except String Catalog :=
  match registry.findSome? (fun e => (e.2 name).map (fun g => (e.1, g))) with
  | none => Except.ok c
  | some hg => faamAddFile c hg.1 name hg.2

/-- Embedding of the scan loop over basenames: any exception aborts
the whole scan. -/
def faamLoadFrom (registry : List (String × (String → Option MatchG))) :
    Catalog → List String → Except String Catalog
  | c, [] => Except.ok c
  | c, n :: rest =>
      match loadFileStep registry c n with
      | Except.error e => Except.error e
      | Except.ok c2 => faamLoadFrom registry c2 rest

/-- The registry restricted to the `core` hook of
`accessors/core.py`. -/
def coreRegistry : List (String × (String → Option MatchG)) :=
  [("core", matchCore)]

/-- Decidable equality of scan outcomes. -/
instance {α β : Type} [DecidableEq α] [DecidableEq β] :
    DecidableEq (Except α β) := fun a b =>
  match a, b with
  | Except.error x, Except.error y =>
      match decEq x y with
      | isTrue h => isTrue (by rw [h])
      | isFalse h => isFalse (fun hc => h (Except.error.inj hc))
  | Except.error _, Except.ok _ => isFalse (fun hc => Except.noConfusion hc)
  | Except.ok _, Except.error _ => isFalse (fun hc => Except.noConfusion hc)
  | Except.ok x, Except.ok y =>
      match decEq x y with
      | isTrue h => isTrue (by rw [h])
      | isFalse h => isFalse (fun hc => h (Except.ok.inj hc))

end Faam

namespace Faam

set_option maxRecDepth 100000 in
/-- Claim C9, counterexample: the file
`core_faam_20219901_v001_r0_b001_1hz.nc` matches the registered core
pattern but its date `20219901` (month 99) fails to parse; the
resulting `ValueError` is not caught, so the whole scan aborts and the
following perfectly valid file is never catalogued — the failure is
fatal to the whole scan, not a per-file skip. -/
theorem C9_scan_counterexample :
    (matchCore "core_faam_20219901_v001_r0_b001_1hz.nc").isSome = true ∧
    faamLoadFrom coreRegistry { flights := [] }
      ["core_faam_20219901_v001_r0_b001_1hz.nc",
       "core_faam_20200101_v001_r1_b001_1hz.nc"] =
      Except.error "ValueError: unconverted or invalid date" ∧
    (faamLoadFrom coreRegistry { flights := [] }
      ["core_faam_20200101_v001_r1_b001_1hz.nc"]).isOk = true := by
  refine ⟨by decide, by decide, by decide⟩

/-- Claim C9 amended: during a catalog scan, a file whose basename
matches a registered pattern but whose captured date field fails to
parse as a valid date raises a `ValueError` that aborts the entire
scan (the remaining files are not processed); files matching no
registered pattern are silently ignored and the scan continues. -/
theorem C9_scan_amended
    (registry : List (String × (String → Option MatchG)))
    (c : Catalog) (name name2 : String) (rest : List String)
    (hook : String) (g : MatchG)
    (hmatch : registry.findSome?
      (fun e => (e.2 name).map (fun g2 => (e.1, g2))) = some (hook, g))
    (hbad : validDate8 g.date = false)
    (hnomatch : registry.findSome?
      (fun e => (e.2 name2).map (fun g2 => (e.1, g2))) = none) :
    faamLoadFrom registry c (name :: rest) =
      Except.error "ValueError: unconverted or invalid date" ∧
    faamLoadFrom registry c (name2 :: rest) =
      faamLoadFrom registry c rest := by
  constructor
  · have hstep : loadFileStep registry c name =
        Except.error "ValueError: unconverted or invalid date" := by
      unfold loadFileStep
      rw [hmatch]
      show faamAddFile c hook name g = _
      unfold faamAddFile
      rw [hbad]
      rfl
    conv_lhs => unfold faamLoadFrom
    rw [hstep]
  · have hstep2 : loadFileStep registry c name2 = Except.ok c := by
      unfold loadFileStep
      rw [hnomatch]
    conv_lhs => unfold faamLoadFrom
    rw [hstep2]

set_option maxRecDepth 100000 in
/-- Witness for `C9_scan_amended`: the invalid-date core file aborts a
two-file scan, while `readme.txt` (no pattern) is skipped and the scan
continues. -/
theorem C9_scan_witness :
    faamLoadFrom coreRegistry { flights := [] }
      ("core_faam_20219901_v001_r0_b001_1hz.nc" ::
        ["core_faam_20200101_v001_r1_b001_1hz.nc"]) =
      Except.error "ValueError: unconverted or invalid date" ∧
    faamLoadFrom coreRegistry { flights := [] }
      ("readme.txt" :: ["core_faam_20200101_v001_r1_b001_1hz.nc"]) =
      faamLoadFrom coreRegistry { flights := [] }
        ["core_faam_20200101_v001_r1_b001_1hz.nc"] :=
  C9_scan_amended coreRegistry { flights := [] }
    "core_faam_20219901_v001_r0_b001_1hz.nc" "readme.txt"
    ["core_faam_20200101_v001_r1_b001_1hz.nc"] "core"
    { date := "20219901", flightnum := "b001", version := some "1",
      revision := some "0", freq := some "1" }
    (by decide) (by decide) (by decide)

end Faam
